import Mathlib

/-!
Verification of the dazzlesum checksum tool's core against its
natural-language specification.

The development shallowly embeds the relevant parts of `dazzlesum.py`:
text is modelled as lists of characters, digest files as lists of lines
(filenames and hashes are assumed free of newline characters, which is what
justifies the line-level model of a file read back with Python's line
iteration), byte strings as lists of naturals below 256, and the hash
primitive as an abstract function from file content to a hex string, exactly
as the specification treats the Hash Engine as a primitive collaborator.
Python's `str.strip`, `str.lower`, `str.split('  ', 1)`, `in` and
`startswith` are reimplemented character by character (`lower` restricted to
ASCII, which covers every string the tool itself produces).
-/

namespace Dazzlesum

/-- Strings as lists of characters, the unit of all parsing code below. -/
abbrev Str := List Char

/-- The whitespace characters stripped by Python's `str.strip()`
(ASCII subset). -/
def isSpaceChar (c : Char) : Bool :=
  c == ' ' || c == '\t' || c == '\n' || c == '\r' || c == '\x0b' || c == '\x0c'

/-- Drop leading whitespace, as in Python's `str.lstrip()`. -/
def stripLead : Str → Str
  | [] => []
  | c :: rest => if isSpaceChar c then stripLead rest else c :: rest

/-- Drop trailing whitespace, as in Python's `str.rstrip()`. -/
def stripTrail (s : Str) : Str := (stripLead s.reverse).reverse

/-- Python's `str.strip()`: drop whitespace from both ends. -/
def strip (s : Str) : Str := stripTrail (stripLead s)

/-- ASCII lower-casing of one character, as Python's `str.lower()` acts on
the ASCII range (the only range the tool's own markers use). -/
def lowerChar (c : Char) : Char :=
  if 65 ≤ c.toNat ∧ c.toNat ≤ 90 then Char.ofNat (c.toNat + 32) else c

/-- ASCII `str.lower()` on a whole string. -/
def lowerStr (s : Str) : Str := s.map lowerChar

/-- Python's `line.startswith('#')`. -/
def startsWithHashChar : Str → Bool
  | [] => false
  | c :: _ => c == '#'

/-- Python's substring test `needle in hay`. -/
def containsSub (needle : Str) : Str → Bool
  | [] => needle.isEmpty
  | c :: rest => needle.isPrefixOf (c :: rest) || containsSub needle rest

/-- Python's `line.split('  ', 1)`, returning `some (before, after)` for the
leftmost occurrence of two consecutive spaces and `none` when the separator
does not occur (the `len(parts) == 2` test failing). -/
def splitTwoSpace : Str → Option (Str × Str)
  | [] => none
  | [_] => none
  | c :: d :: rest =>
    if c = ' ' ∧ d = ' ' then some ([], rest)
    else (splitTwoSpace (d :: rest)).map fun p => (c :: p.1, p.2)

/-! ## Monolithic-format auto-detection (`is_monolithic_file`) -/

/-- The marker test `'monolithic' in line.lower() or 'root directory:' in
line.lower()` applied to a (stripped) header or blank line. -/
def monoMarkerLine (s : Str) : Bool :=
  containsSub "monolithic".data (lowerStr s) ||
    containsSub "root directory:".data (lowerStr s)

/-- The test `not line or line.startswith('#')` on a stripped line. -/
def blankOrComment (s : Str) : Bool := s.isEmpty || startsWithHashChar s

/-- Does a parsed data-line name contain a path separator
(`'/' in filename or '\\' in filename`)? -/
def nameHasSep (f : Str) : Bool := f.contains '/' || f.contains '\\'

/-- The separator check `is_monolithic_file` applies to a stripped data
line: split on the two-space separator and look for a path separator in the
name part; a line that does not split in two yields `False`. -/
def dataLineSep (s : Str) : Bool :=
  match splitTwoSpace s with
  | some (_, filename) => nameHasSep filename
  | none => false

/-- The loop body of `is_monolithic_file` (dazzlesum.py:1915-1943): `i` is
the 0-based index of the current line; the loop breaks once `i > 10`; a
blank or comment line is tested for the monolithic markers; the first data
line is tested for a path separator in its name and the loop then breaks. -/
def isMonolithicGo : Nat → List Str → Bool
  | _, [] => false
  | i, line :: rest =>
    if 10 < i then false
    else
      let s := strip line
      if blankOrComment s then
        if monoMarkerLine s then true else isMonolithicGo (i + 1) rest
      else
        dataLineSep s

/-- `is_monolithic_file`, over the file's list of lines. -/
def isMonolithicLines (lines : List Str) : Bool := isMonolithicGo 0 lines

/-- The detection rule exactly as claim C6 words it: true iff ANY data
line's name contains a path separator, or ANY header comment (or blank
line, which the code lumps with comments) mentions the markers. -/
def claimedMonolithic (lines : List Str) : Bool :=
  lines.any fun l =>
    let s := strip l
    if blankOrComment s then monoMarkerLine s else dataLineSep s

/-- The detection rule as the code actually behaves, stated declaratively:
only the first 11 lines are scanned; the blank/comment lines before the
first data line are tested for the markers; the first data line alone is
tested for a path separator in its name. -/
def amendedMonolithic (lines : List Str) : Bool :=
  let scanned := lines.take 11
  (scanned.takeWhile fun l => blankOrComment (strip l)).any
      (fun l => monoMarkerLine (strip l)) ||
    match scanned.dropWhile (fun l => blankOrComment (strip l)) with
    | d :: _ => dataLineSep (strip d)
    | [] => false

/-- Core of `amendedMonolithic` without the 11-line window, for the
induction relating it to the scanning loop. -/
def amendedCore (lines : List Str) : Bool :=
  (lines.takeWhile fun l => blankOrComment (strip l)).any
      (fun l => monoMarkerLine (strip l)) ||
    match lines.dropWhile (fun l => blankOrComment (strip l)) with
    | d :: _ => dataLineSep (strip d)
    | [] => false

lemma isMonolithicGo_eq_amendedCore (lines : List Str) :
    ∀ i : Nat, isMonolithicGo i lines = amendedCore (lines.take (11 - i)) := by
  induction lines with
  | nil =>
    intro i
    simp [isMonolithicGo, amendedCore]
  | cons line rest ih =>
    intro i
    by_cases hi : 10 < i
    · have h0 : 11 - i = 0 := by omega
      simp [isMonolithicGo, hi, h0, amendedCore]
    · have hk : 11 - i = (11 - (i + 1)) + 1 := by omega
      rw [hk]
      simp only [List.take_succ_cons]
      by_cases hb : blankOrComment (strip line)
      · by_cases hm : monoMarkerLine (strip line)
        · simp [isMonolithicGo, hi, hb, hm, amendedCore, List.takeWhile_cons,
            List.dropWhile_cons]
        · simp only [isMonolithicGo, if_neg (by omega : ¬ 10 < i), hb,
            if_true, hm, if_false, ih (i + 1)]
          simp [amendedCore, List.takeWhile_cons, List.dropWhile_cons, hb, hm,
            Bool.or_assoc]
      · simp [isMonolithicGo, hi, hb, amendedCore, List.takeWhile_cons,
          List.dropWhile_cons]

/-- A checksum file whose FIRST data line has a plain filename and whose
SECOND data line has a path-separated name: `is_monolithic_file` stops at
the first data line and reports non-monolithic. -/
def monoCounterLines : List Str :=
  ["# some header".data, "abc  plain.txt".data, "def  sub/name.txt".data]

/-- C6 counterexample: the code does NOT return true whenever "any data
line's name contains a path separator" — it inspects only the first data
line.  On `monoCounterLines` the claimed rule says monolithic (the second
data line's name contains '/'), the code says not. -/
theorem monolithic_detection_counterexample :
    isMonolithicLines monoCounterLines = false ∧
      claimedMonolithic monoCounterLines = true := by decide

/-- C6 (amended): `is_monolithic_file` returns true iff, within the first
11 lines, a blank or comment line that precedes the first data line
mentions 'monolithic' or 'root directory:' (case-insensitively), or the
first data line's name (after the two-space split) contains '/' or '\\'. -/
theorem monolithic_detection_amended (lines : List Str) :
    isMonolithicLines lines = amendedMonolithic lines := by
  have h := isMonolithicGo_eq_amendedCore lines 0
  simpa [isMonolithicLines, amendedMonolithic, amendedCore] using h

/-! ## Data model for per-directory generation and verification

A directory listing holds the regular files of one directory: each file's
name together with the outcome of reading it (`Except.error msg` models an
I/O failure whose message the code records, `Except.ok content` a readable
file).  The hash primitive is an abstract function from content to a hex
string, mirroring the spec's Hash Engine collaborator interface. -/

/-- Outcome of reading one file: I/O error message, or its content. -/
abbrev FileData := Except Str Str

/-- A directory's regular files: name paired with read outcome. -/
abbrev DirListing := List (Str × FileData)

/-- `SHASUM_FILENAME = '.shasum'` (dazzlesum.py:81). -/
def shasumFilename : Str := ".shasum".data

/-- `STATE_FILENAME = '.dazzle-state.json'` (dazzlesum.py:82). -/
def stateFilename : Str := ".dazzle-state.json".data

/-- Include/exclude patterns abstracted to predicates on the filename, as
`Path.match` is applied to per-directory file names. -/
abbrev Pattern := Str → Bool

/-- `_should_include_file_simple` (dazzlesum.py:1405-1425): reserved names
are always excluded; then exclude patterns; then include patterns (if any
are given a file must match one); otherwise included. -/
def shouldIncludeFile (includeP excludeP : List Pattern) (name : Str) : Bool :=
  if name = shasumFilename ∨ name = stateFilename then false
  else if excludeP.any fun p => p name then false
  else if ¬ includeP.isEmpty then includeP.any fun p => p name
  else true

/-- `generate_checksums_for_directory` (dazzlesum.py:2157-2247), restricted
to its result value: the files passing the filter are hashed in listing
order; a file whose read fails is counted as failed and produces no entry. -/
def generateChecksums (hash : Str → Str) (includeP excludeP : List Pattern)
    (dir : DirListing) : List (Str × Str) :=
  dir.filterMap fun e =>
    if shouldIncludeFile includeP excludeP e.1 then
      match e.2 with
      | .ok c => some (e.1, hash c)
      | .error _ => none
    else none

/-- Lexicographic-by-code-point string comparison, the order Python's
`sorted` applies to the distinct filename keys. -/
def strLe : Str → Str → Bool
  | [], _ => true
  | _ :: _, [] => false
  | c :: s, d :: t => if c = d then strLe s t else decide (c < d)

/-- Ordered insertion by filename, for `sorted(checksums.items())` (keys
are distinct, so tuple order coincides with key order). -/
def insertByName (e : Str × Str) : List (Str × Str) → List (Str × Str)
  | [] => [e]
  | f :: rest => if strLe e.1 f.1 then e :: f :: rest else f :: insertByName e rest

/-- Sorting of the checksum entries by filename. -/
def sortByName : List (Str × Str) → List (Str × Str)
  | [] => []
  | e :: rest => insertByName e (sortByName rest)

/-- The end marker `'# End of checksums'` both writers emit. -/
def endMarker : Str := "# End of checksums".data

/-- The per-directory header comment
`'# Dazzle checksum tool v<version> - <algorithm> - <timestamp>'`
(dazzlesum.py:2262). -/
def shasumHeader (version alg ts : Str) : Str :=
  "# Dazzle checksum tool v".data ++ version ++ " - ".data ++ alg ++
    " - ".data ++ ts

/-- One data line `f"{info['hash']}  {filename}"`. -/
def dataLine (e : Str × Str) : Str := e.2 ++ "  ".data ++ e.1

/-- `write_shasum_file` (dazzlesum.py:2249-2280): header comment, one data
line per entry in sorted order, end marker; the file is opened with mode
'w', so the result is independent of any previous file content. -/
def writeShasumLines (version alg ts : Str) (checksums : List (Str × Str)) :
    List Str :=
  shasumHeader version alg ts :: (sortByName checksums).map dataLine ++ [endMarker]

/-- Python dict insertion `stored_checksums[filename] = value`: overwrite in
place when the key exists, else append. -/
def dictInsert (k v : Str) : List (Str × Str) → List (Str × Str)
  | [] => [(k, v)]
  | e :: rest => if e.1 = k then (k, v) :: rest else e :: dictInsert k v rest

/-- One iteration of the `.shasum` reading loop (dazzlesum.py:2303-2310):
strip the line, skip blank and comment lines, split on the two-space
separator, store the lower-cased hash under the filename. -/
def parseStoredLine (acc : List (Str × Str)) (line : Str) : List (Str × Str) :=
  let s := strip line
  if blankOrComment s then acc
  else
    match splitTwoSpace s with
    | some (h, f) => dictInsert f (lowerStr h) acc
    | none => acc

/-- The stored-checksum dictionary parsed from a digest file's lines, in
Python dict (first-insertion) order. -/
def parseStored (lines : List Str) : List (Str × Str) :=
  lines.foldl parseStoredLine []

/-- The detail carried by a failed verification entry: a hash mismatch
(expected and actual), or the error of an I/O failure during recompute. -/
inductive FailDetail where
  | mismatch (expected actual : Str)
  | ioError (msg : Str)
deriving DecidableEq, Repr

/-- One element of the `failed` list. -/
structure FailEntry where
  filename : Str
  detail : FailDetail
deriving DecidableEq, Repr

/-- The four result lists of `verify_checksums_in_directory`. -/
structure VerifyResult where
  verified : List Str
  failed : List FailEntry
  missing : List Str
  extra : List Str
deriving DecidableEq, Repr

/-- `directory / filename` existence and read, over a listing: the first
entry with the given name, if any. -/
def lookupFile (dir : DirListing) (name : Str) : Option FileData :=
  (dir.find? fun e => e.1 == name).map fun e => e.2

/-- The per-entry classification of the verification loop
(dazzlesum.py:2315-2351): absent file is missing; a read failure during
recompute is failed with the error detail; otherwise the recomputed hash is
compared case-insensitively with the stored one. -/
def classifyEntry (hash : Str → Str) (dir : DirListing) (r : VerifyResult)
    (e : Str × Str) : VerifyResult :=
  match lookupFile dir e.1 with
  | none => { r with missing := r.missing ++ [e.1] }
  | some (.error msg) => { r with failed := r.failed ++ [⟨e.1, .ioError msg⟩] }
  | some (.ok c) =>
    let actual := hash c
    if lowerStr actual = lowerStr e.2 then
      { r with verified := r.verified ++ [e.1] }
    else
      { r with failed := r.failed ++ [⟨e.1, .mismatch e.2 actual⟩] }

/-- `verify_checksums_in_directory` (dazzlesum.py:2282-2362): error when no
digest file exists; otherwise parse the stored entries, classify each, and
set `extra` to the current files passing the filter that are absent from
the stored names. -/
def verifyChecksumsInDirectory (hash : Str → Str)
    (includeP excludeP : List Pattern) (shasumLines : Option (List Str))
    (dir : DirListing) : Except Str VerifyResult :=
  match shasumLines with
  | none => .error ("no .shasum file found".data)
  | some lines =>
    let stored := parseStored lines
    let r := stored.foldl (classifyEntry hash dir) ⟨[], [], [], []⟩
    let current :=
      (dir.filter fun e => shouldIncludeFile includeP excludeP e.1).map fun e => e.1
    .ok { r with
          extra := current.filter fun n => ¬ (stored.map fun e => e.1).contains n }

/-- The generation half of `process_single_directory`
(dazzlesum.py:2551-2583) for individual mode: compute the directory's
checksums and, only when the set is non-empty (`if checksums:`), write the
digest file; `none` means no file was written. -/
def processDirectoryGenerate (hash : Str → Str)
    (includeP excludeP : List Pattern) (version alg ts : Str)
    (dir : DirListing) : Option (List Str) :=
  let cs := generateChecksums hash includeP excludeP dir
  if cs.isEmpty then none else some (writeShasumLines version alg ts cs)

/-- Join lines back into file content, only used as the (never hashed)
content of the written `.shasum` entry in the post-generation listing. -/
def joinLines (lines : List Str) : Str :=
  lines.foldr (fun l acc => l ++ '\n' :: acc) []

/-- Generate-then-verify on an unmodified directory: run generation, add
the written `.shasum` file to the listing (in non-shadow mode it lives in
the directory itself), and verify against it. -/
def roundTripDirectory (hash : Str → Str) (includeP excludeP : List Pattern)
    (version alg ts : Str) (dir : DirListing) : Except Str VerifyResult :=
  let written := processDirectoryGenerate hash includeP excludeP version alg ts dir
  let dirAfter :=
    match written with
    | some lines => dir ++ [(shasumFilename, Except.ok (joinLines lines))]
    | none => dir
  verifyChecksumsInDirectory hash includeP excludeP written dirAfter

/-! ## String lemmas for the write/parse round trip -/

lemma twoSpace_data : "  ".data = [' ', ' '] := rfl

lemma stripLead_cons_not_space {c : Char} (s : Str) (h : isSpaceChar c = false) :
    stripLead (c :: s) = c :: s := by
  simp [stripLead, h]

lemma stripLead_append_last {c : Char} (h : isSpaceChar c = false) (l : Str) :
    ∃ lp, stripLead (l ++ [c]) = lp ++ [c] := by
  induction l with
  | nil => exact ⟨[], by simp [stripLead, h]⟩
  | cons x xs ih =>
    by_cases hx : isSpaceChar x
    · simpa [stripLead, hx] using ih
    · exact ⟨x :: xs, by simp [stripLead, hx]⟩

lemma stripTrail_append_not_space {c : Char} (h : isSpaceChar c = false)
    (l : Str) : stripTrail (l ++ [c]) = l ++ [c] := by
  simp [stripTrail, stripLead_cons_not_space _ h]

lemma strip_cons_head {c : Char} (h : isSpaceChar c = false) (s : Str) :
    ∃ t, strip (c :: s) = c :: t := by
  rw [strip, stripLead_cons_not_space s h]
  obtain ⟨lp, hlp⟩ := stripLead_append_last h s.reverse
  refine ⟨lp.reverse, ?_⟩
  simp [stripTrail, hlp]

lemma exists_append_getLast {n : Str} {c : Char} (h : n.getLast? = some c) :
    ∃ f, n = f ++ [c] := by
  induction n with
  | nil => simp at h
  | cons x xs ih =>
    cases xs with
    | nil =>
      simp at h
      exact ⟨[], by simp [h]⟩
    | cons y ys =>
      obtain ⟨f, hf⟩ := ih (by simpa using h)
      exact ⟨x :: f, by simp [hf]⟩

lemma not_space_ne_space {c : Char} (h : isSpaceChar c = false) : c ≠ ' ' := by
  rintro rfl
  simp [isSpaceChar] at h

lemma splitTwoSpace_boundary {h : Str}
    (hh : (h.all fun d => ! isSpaceChar d) = true) (f : Str) :
    splitTwoSpace (h ++ ' ' :: ' ' :: f) = some (h, f) := by
  induction h with
  | nil => simp [splitTwoSpace]
  | cons c h' ih =>
    simp only [List.all_cons, Bool.and_eq_true, Bool.not_eq_true'] at hh
    have hc : c ≠ ' ' := not_space_ne_space hh.1
    have ih' := ih (by simpa using hh.2)
    cases h' with
    | nil => simp [splitTwoSpace, hc]
    | cons d h'' =>
      have hd : d ≠ ' ' := not_space_ne_space (by
        have := hh.2
        simp only [List.all_cons, Bool.and_eq_true, Bool.not_eq_true'] at this
        exact this.1)
      simp only [List.cons_append] at ih' ⊢
      rw [splitTwoSpace]
      · simp only [if_neg (by tauto : ¬ (c = ' ' ∧ d = ' '))]
        rw [ih']
        rfl

lemma toNat_ofNat_valid {n : Nat} (h : n.isValidChar) :
    (Char.ofNat n).toNat = n := by
  rw [Char.ofNat, dif_pos h]
  simp [Char.ofNatAux, Char.toNat, UInt32.toNat, BitVec.toNat_ofNatLt]

lemma lowerChar_idem (c : Char) : lowerChar (lowerChar c) = lowerChar c := by
  unfold lowerChar
  by_cases h : 65 ≤ c.toNat ∧ c.toNat ≤ 90
  · rw [if_pos h]
    have ht : (Char.ofNat (c.toNat + 32)).toNat = c.toNat + 32 :=
      toNat_ofNat_valid (Or.inl (by omega))
    rw [if_neg (by omega)]
  · rw [if_neg h, if_neg h]

lemma lowerStr_idem (s : Str) : lowerStr (lowerStr s) = lowerStr s := by
  simp [lowerStr, List.map_map, Function.comp_def, lowerChar_idem]

/-! ## Validity side conditions for the line-level file model

The digest-file format writes `hash<two spaces>filename` and reads it back
via `strip` and `split('  ', 1)`.  The round trip is exact for hashes that
are non-empty, contain no whitespace and do not start with `'#'` (true of
every hex digest), and filenames that are non-empty, contain no newline
(which the line model of the file requires anyway) and do not end in
whitespace (which `strip` would eat). -/

/-- Filename well-formedness for an exact digest-line round trip. -/
def validFileName (n : Str) : Bool :=
  match n.getLast? with
  | none => false
  | some c => ! isSpaceChar c && ! n.contains '\n' && ! n.contains '\r'

/-- Hash-string well-formedness: non-empty, no whitespace, not starting
with the comment character (every hex digest satisfies this). -/
def validHashStr (h : Str) : Bool :=
  match h with
  | [] => false
  | c :: _ => ! (c == '#') && h.all fun d => ! isSpaceChar d

lemma validHashStr_parts {h : Str} (hh : validHashStr h = true) :
    (∃ hd t, h = hd :: t ∧ (hd = '#') = False) ∧
      (h.all fun d => ! isSpaceChar d) = true := by
  cases h with
  | nil => simp [validHashStr] at hh
  | cons a b =>
    simp only [validHashStr, Bool.and_eq_true, Bool.not_eq_true', beq_eq_false_iff_ne,
      ne_eq] at hh
    exact ⟨⟨a, b, rfl, by simp [hh.1]⟩, hh.2⟩

lemma validFileName_parts {n : Str} (hn : validFileName n = true) :
    ∃ f c, n = f ++ [c] ∧ isSpaceChar c = false := by
  cases hg : n.getLast? with
  | none =>
    unfold validFileName at hn
    rw [hg] at hn
    simp at hn
  | some c =>
    obtain ⟨f, hf⟩ := exists_append_getLast hg
    unfold validFileName at hn
    rw [hg] at hn
    simp only [Bool.and_eq_true, Bool.not_eq_true'] at hn
    exact ⟨f, c, hf, hn.1.1⟩

lemma strip_dataLine {e : Str × Str} (hh : validHashStr e.2 = true)
    (hn : validFileName e.1 = true) : strip (dataLine e) = dataLine e := by
  obtain ⟨⟨hd, t, he, _⟩, hall⟩ := validHashStr_parts hh
  obtain ⟨f, c, hf, hcs⟩ := validFileName_parts hn
  have hhd : isSpaceChar hd = false := by
    rw [he] at hall
    simp only [List.all_cons, Bool.and_eq_true, Bool.not_eq_true'] at hall
    exact hall.1
  rw [strip]
  have h1 : stripLead (dataLine e) = dataLine e := by
    rw [dataLine, he, List.cons_append, List.cons_append,
      stripLead_cons_not_space _ hhd]
  rw [h1]
  have h2 : dataLine e = (e.2 ++ [' ', ' '] ++ f) ++ [c] := by
    rw [dataLine, twoSpace_data, hf]
    simp
  rw [h2, stripTrail_append_not_space hcs]

lemma blankOrComment_dataLine {e : Str × Str} (hh : validHashStr e.2 = true) :
    blankOrComment (dataLine e) = false := by
  obtain ⟨⟨hd, t, he, hne⟩, _⟩ := validHashStr_parts hh
  rw [dataLine, he]
  simp only [List.cons_append, blankOrComment, startsWithHashChar, List.isEmpty,
    Bool.false_or]
  simpa using fun hcon => (hne ▸ hcon : False)

lemma splitTwoSpace_dataLine {e : Str × Str} (hh : validHashStr e.2 = true) :
    splitTwoSpace (dataLine e) = some (e.2, e.1) := by
  obtain ⟨_, hall⟩ := validHashStr_parts hh
  rw [dataLine, twoSpace_data]
  have harr : e.2 ++ [' ', ' '] ++ e.1 = e.2 ++ ' ' :: ' ' :: e.1 := by simp
  rw [harr, splitTwoSpace_boundary hall]

lemma parseStoredLine_dataLine (acc : List (Str × Str)) {e : Str × Str}
    (hh : validHashStr e.2 = true) (hn : validFileName e.1 = true) :
    parseStoredLine acc (dataLine e) = dictInsert e.1 (lowerStr e.2) acc := by
  rw [parseStoredLine]
  simp only [strip_dataLine hh hn, blankOrComment_dataLine hh,
    splitTwoSpace_dataLine hh]
  simp

lemma parseStoredLine_comment (acc : List (Str × Str)) {line : Str} {t : Str}
    (h : line = '#' :: t) : parseStoredLine acc line = acc := by
  obtain ⟨u, hu⟩ := strip_cons_head (c := '#') (by simp [isSpaceChar]) t
  rw [parseStoredLine, h, hu]
  simp [blankOrComment, startsWithHashChar]

lemma shasumHeader_cons (version alg ts : Str) :
    ∃ t, shasumHeader version alg ts = '#' :: t := by
  have hsplit : "# Dazzle checksum tool v".data =
      '#' :: " Dazzle checksum tool v".data := rfl
  refine ⟨" Dazzle checksum tool v".data ++ version ++ " - ".data ++ alg ++
    " - ".data ++ ts, ?_⟩
  rw [shasumHeader, hsplit]
  simp

lemma endMarker_cons : ∃ t, endMarker = '#' :: t :=
  ⟨" End of checksums".data, rfl⟩

lemma dictInsert_fresh {k : Str} (v : Str) {acc : List (Str × Str)}
    (h : ∀ a ∈ acc, a.1 ≠ k) : dictInsert k v acc = acc ++ [(k, v)] := by
  induction acc with
  | nil => rfl
  | cons e rest ih =>
    rw [dictInsert, if_neg (h e (by simp)), ih fun a ha => h a (by simp [ha])]
    rfl

lemma foldl_dictInsert_nodup :
    ∀ (l acc : List (Str × Str)), (∀ e ∈ l, ∀ a ∈ acc, a.1 ≠ e.1) →
    ((l.map fun e => e.1).Nodup) →
    l.foldl (fun acc e => dictInsert e.1 (lowerStr e.2) acc) acc =
      acc ++ l.map fun e => (e.1, lowerStr e.2) := by
  intro l
  induction l with
  | nil => intro acc _ _; simp
  | cons e rest ih =>
    intro acc hfresh hnodup
    rw [List.foldl_cons, dictInsert_fresh _ fun a ha => hfresh e (by simp) a ha]
    rw [List.map_cons, List.nodup_cons] at hnodup
    rw [ih (acc ++ [(e.1, lowerStr e.2)]) ?_ hnodup.2]
    · simp
    · intro f hf a ha
      rcases List.mem_append.1 ha with ha' | ha'
      · exact hfresh f (by simp [hf]) a ha'
      · have : a = (e.1, lowerStr e.2) := by simpa using ha'
        rw [this]
        intro hcon
        exact hnodup.1 (hcon ▸ List.mem_map_of_mem (fun x => x.1) hf)

lemma foldl_parseStoredLine_dataLines :
    ∀ (l : List (Str × Str)) (acc : List (Str × Str)),
    (∀ e ∈ l, validFileName e.1 = true ∧ validHashStr e.2 = true) →
    (l.map dataLine).foldl parseStoredLine acc =
      l.foldl (fun acc e => dictInsert e.1 (lowerStr e.2) acc) acc := by
  intro l
  induction l with
  | nil => intro acc _; rfl
  | cons e rest ih =>
    intro acc hv
    rw [List.map_cons, List.foldl_cons, List.foldl_cons,
      parseStoredLine_dataLine acc (hv e (by simp)).2 (hv e (by simp)).1]
    exact ih _ fun f hf => hv f (by simp [hf])

/-! ## Sorting by filename -/

/-- The order relation on checksum entries used by the writer. -/
def entryLe (a b : Str × Str) : Prop := strLe a.1 b.1 = true

lemma strLe_total : ∀ a b : Str, strLe a b = true ∨ strLe b a = true := by
  intro a
  induction a with
  | nil => intro b; left; simp [strLe]
  | cons c s ih =>
    intro b
    cases b with
    | nil => right; simp [strLe]
    | cons d t =>
      by_cases hcd : c = d
      · subst hcd
        rcases ih t with h | h
        · left; simpa [strLe] using h
        · right; simpa [strLe] using h
      · rcases lt_trichotomy c d with hlt | heq | hgt
        · left; simp [strLe, hcd, hlt]
        · exact absurd heq hcd
        · right; simp [strLe, Ne.symm hcd, hgt]

lemma strLe_trans : ∀ a b c : Str, strLe a b = true → strLe b c = true →
    strLe a c = true := by
  intro a
  induction a with
  | nil => intro b c _ _; simp [strLe]
  | cons x s ih =>
    intro b c hab hbc
    cases b with
    | nil => simp [strLe] at hab
    | cons y t =>
      cases c with
      | nil => simp [strLe] at hbc
      | cons z u =>
        by_cases hxy : x = y
        · subst hxy
          by_cases hyz : x = z
          · subst hyz
            simp only [strLe, if_pos rfl] at hab hbc ⊢
            exact ih t u hab hbc
          · simpa [strLe, hyz] using (by simpa [strLe, hyz] using hbc)
        · by_cases hyz : y = z
          · subst hyz
            simpa [strLe, hxy] using (by simpa [strLe, hxy] using hab)
          · have h1 : x < y := by simpa [strLe, hxy] using hab
            have h2 : y < z := by simpa [strLe, hyz] using hbc
            have hxz : x < z := lt_trans h1 h2
            simp [strLe, ne_of_lt hxz, hxz]

lemma insertByName_perm (e : Str × Str) (l : List (Str × Str)) :
    List.Perm (insertByName e l) (e :: l) := by
  induction l with
  | nil => simp [insertByName]
  | cons f rest ih =>
    rw [insertByName]
    by_cases h : strLe e.1 f.1
    · rw [if_pos h]
    · rw [if_neg h]
      exact List.Perm.trans (List.Perm.cons f ih) (List.Perm.swap e f rest)

lemma sortByName_perm (l : List (Str × Str)) :
    List.Perm (sortByName l) l := by
  induction l with
  | nil => simp [sortByName]
  | cons e rest ih =>
    rw [sortByName]
    exact List.Perm.trans (insertByName_perm e (sortByName rest))
      (List.Perm.cons e ih)

lemma insertByName_pairwise (e : Str × Str) {l : List (Str × Str)}
    (h : List.Pairwise entryLe l) :
    List.Pairwise entryLe (insertByName e l) := by
  induction l with
  | nil => simp [insertByName, List.pairwise_cons]
  | cons f rest ih =>
    rw [insertByName]
    rcases List.pairwise_cons.1 h with ⟨hf, hrest⟩
    by_cases hef : strLe e.1 f.1
    · rw [if_pos hef]
      refine List.pairwise_cons.2 ⟨?_, h⟩
      intro x hx
      rcases List.mem_cons.1 hx with rfl | hx'
      · exact hef
      · exact strLe_trans _ _ _ hef (hf x hx')
    · rw [if_neg hef]
      refine List.pairwise_cons.2 ⟨?_, ih hrest⟩
      intro x hx
      have hx' := (insertByName_perm e rest).mem_iff.1 hx
      rcases List.mem_cons.1 hx' with rfl | hx''
      · rcases strLe_total x.1 f.1 with hh | hh
        · exact absurd hh hef
        · exact hh
      · exact hf x hx''

lemma sortByName_pairwise (l : List (Str × Str)) :
    List.Pairwise entryLe (sortByName l) := by
  induction l with
  | nil => simp [sortByName]
  | cons e rest ih => exact insertByName_pairwise e ih

/-- The parsed dictionary of a freshly written digest file is exactly the
sorted entry list with lower-cased hashes. -/
lemma parseStored_writeShasumLines (version alg ts : Str)
    (cs : List (Str × Str))
    (hv : ∀ e ∈ cs, validFileName e.1 = true ∧ validHashStr e.2 = true)
    (hnodup : (cs.map fun e => e.1).Nodup) :
    parseStored (writeShasumLines version alg ts cs) =
      (sortByName cs).map fun e => (e.1, lowerStr e.2) := by
  obtain ⟨th, hth⟩ := shasumHeader_cons version alg ts
  obtain ⟨tm, htm⟩ := endMarker_cons
  rw [writeShasumLines, parseStored, List.foldl_append, List.foldl_cons,
    List.foldl_nil, parseStoredLine_comment _ htm, List.foldl_cons,
    parseStoredLine_comment _ hth]
  have hv' : ∀ e ∈ sortByName cs, validFileName e.1 = true ∧ validHashStr e.2 = true :=
    fun e he => hv e ((sortByName_perm cs).mem_iff.1 he)
  have hnodup' : ((sortByName cs).map fun e => e.1).Nodup :=
    (((sortByName_perm cs).map fun e => e.1).nodup_iff).2 hnodup
  rw [foldl_parseStoredLine_dataLines _ _ hv',
    foldl_dictInsert_nodup _ [] (by simp) hnodup', List.nil_append]

/-! ## Characterizing the verification classification -/

/-- A stored entry verifies: the file is present, readable, and its
recomputed hash equals the stored one case-insensitively. -/
def verifiedPred (hash : Str → Str) (dir : DirListing) (e : Str × Str) : Bool :=
  match lookupFile dir e.1 with
  | some (.ok c) => decide (lowerStr (hash c) = lowerStr e.2)
  | _ => false

/-- The failed-list element a stored entry contributes, if any: a hash
mismatch for a readable present file, the I/O error detail for an
unreadable present file. -/
def failEntryOf (hash : Str → Str) (dir : DirListing) (e : Str × Str) :
    Option FailEntry :=
  match lookupFile dir e.1 with
  | some (.ok c) =>
    if lowerStr (hash c) = lowerStr e.2 then none
    else some ⟨e.1, .mismatch e.2 (hash c)⟩
  | some (.error m) => some ⟨e.1, .ioError m⟩
  | none => none

lemma foldl_classifyEntry_spec (hash : Str → Str) (dir : DirListing) :
    ∀ (stored : List (Str × Str)) (r : VerifyResult),
    stored.foldl (classifyEntry hash dir) r =
      { verified := r.verified ++ (stored.filter (verifiedPred hash dir)).map fun e => e.1,
        failed := r.failed ++ stored.filterMap (failEntryOf hash dir),
        missing := r.missing ++
          (stored.filter fun e => (lookupFile dir e.1).isNone).map fun e => e.1,
        extra := r.extra } := by
  intro stored
  induction stored with
  | nil => intro r; simp
  | cons e rest ih =>
    intro r
    rw [List.foldl_cons, ih]
    cases hl : lookupFile dir e.1 with
    | none =>
      simp [classifyEntry, hl, verifiedPred, failEntryOf, List.filter_cons,
        List.filterMap_cons]
    | some d =>
      cases d with
      | error m =>
        simp [classifyEntry, hl, verifiedPred, failEntryOf, List.filter_cons,
          List.filterMap_cons]
      | ok c =>
        by_cases hEq : lowerStr (hash c) = lowerStr e.2
        · simp [classifyEntry, hl, verifiedPred, failEntryOf, List.filter_cons,
            List.filterMap_cons, hEq]
        · simp [classifyEntry, hl, verifiedPred, failEntryOf, List.filter_cons,
            List.filterMap_cons, hEq]

lemma dictInsert_keys_sub {k v : Str} :
    ∀ {l : List (Str × Str)} {x : Str},
    x ∈ (dictInsert k v l).map (fun e => e.1) → x = k ∨ x ∈ l.map fun e => e.1 := by
  intro l
  induction l with
  | nil => intro x hx; simpa [dictInsert] using hx
  | cons e rest ih =>
    intro x hx
    rw [dictInsert] at hx
    by_cases he : e.1 = k
    · rw [if_pos he] at hx
      rcases (by simpa using hx : x = k ∨ x ∈ rest.map fun e => e.1) with h | h
      · exact Or.inl h
      · exact Or.inr (by simp [h])
    · rw [if_neg he] at hx
      rcases (by simpa using hx : x = e.1 ∨ x ∈ (dictInsert k v rest).map fun e => e.1) with h | h
      · exact Or.inr (by simp [h])
      · rcases ih h with h' | h'
        · exact Or.inl h'
        · exact Or.inr (by simp [h'])

lemma dictInsert_keys_nodup {k v : Str} :
    ∀ {l : List (Str × Str)}, ((l.map fun e => e.1).Nodup) →
    (((dictInsert k v l).map fun e => e.1).Nodup) := by
  intro l
  induction l with
  | nil => intro _; simp [dictInsert]
  | cons e rest ih =>
    intro h
    simp only [List.map_cons, List.nodup_cons] at h
    rw [dictInsert]
    by_cases he : e.1 = k
    · rw [if_pos he]
      simp only [List.map_cons, List.nodup_cons]
      exact ⟨he ▸ h.1, h.2⟩
    · rw [if_neg he]
      simp only [List.map_cons, List.nodup_cons]
      refine ⟨fun hcon => ?_, ih h.2⟩
      rcases dictInsert_keys_sub hcon with h' | h'
      · exact he h'
      · exact h.1 h'

lemma parseStoredLine_keys_nodup (line : Str) {acc : List (Str × Str)}
    (h : (acc.map fun e => e.1).Nodup) :
    (((parseStoredLine acc line).map fun e => e.1).Nodup) := by
  rw [parseStoredLine]
  by_cases hb : blankOrComment (strip line)
  · simpa [hb] using h
  · simp only [hb, if_false]
    cases hs : splitTwoSpace (strip line) with
    | none => simpa using h
    | some p => exact dictInsert_keys_nodup h

lemma parseStored_keys_nodup (lines : List Str) :
    (((parseStored lines).map fun e => e.1).Nodup) := by
  suffices h : ∀ acc : List (Str × Str), ((acc.map fun e => e.1).Nodup) →
      (((lines.foldl parseStoredLine acc).map fun e => e.1).Nodup) by
    exact h [] (by simp)
  induction lines with
  | nil => intro acc hacc; simpa using hacc
  | cons l rest ih =>
    intro acc hacc
    rw [List.foldl_cons]
    exact ih _ (parseStoredLine_keys_nodup l hacc)

lemma failEntryOf_filename (hash : Str → Str) (dir : DirListing)
    (e : Str × Str) (f : FailEntry) (h : failEntryOf hash dir e = some f) :
    f.filename = e.1 := by
  cases hl : lookupFile dir e.1 with
  | none => simp [failEntryOf, hl] at h
  | some d =>
    cases d with
    | error m =>
      simp only [failEntryOf, hl, Option.some.injEq] at h
      rw [← h]
    | ok c =>
      by_cases hEq : lowerStr (hash c) = lowerStr e.2
      · simp [failEntryOf, hl, hEq] at h
      · simp only [failEntryOf, hl, if_neg hEq, Option.some.injEq] at h
        rw [← h]

lemma verifiedPred_not_missing {hash : Str → Str} {dir : DirListing}
    {e : Str × Str} (h : verifiedPred hash dir e = true) :
    (lookupFile dir e.1).isNone = false ∧ failEntryOf hash dir e = none := by
  cases hl : lookupFile dir e.1 with
  | none => simp [verifiedPred, hl] at h
  | some d =>
    cases d with
    | error m => simp [verifiedPred, hl] at h
    | ok c =>
      simp only [verifiedPred, hl, decide_eq_true_eq] at h
      exact ⟨by simp, by simp [failEntryOf, hl, if_pos h]⟩

lemma missing_not_failed {hash : Str → Str} {dir : DirListing} {e : Str × Str}
    (h : (lookupFile dir e.1).isNone = true) : failEntryOf hash dir e = none := by
  cases hl : lookupFile dir e.1 with
  | none => simp [failEntryOf, hl]
  | some d => simp [hl] at h

lemma contains_iff_mem {α : Type} [BEq α] [LawfulBEq α] {n : α} :
    ∀ {l : List α}, l.contains n = true ↔ n ∈ l := by
  intro l
  induction l with
  | nil => simp
  | cons x xs ih => simp [List.contains_cons, ih]

/-- C7: verification classification for an individual digest file.  Each
stored entry is missing when the named file is absent, verified when
present, readable and its recomputed hash matches the stored one
case-insensitively, failed otherwise (a read error producing the error
detail instead of an actual hash); `extra` is exactly the current files
passing the include/exclude filter that are absent from the stored names;
and the four lists are pairwise disjoint. -/
theorem verify_directory_classification (hash : Str → Str)
    (includeP excludeP : List Pattern) (lines : List Str) (dir : DirListing) :
    ∃ r, verifyChecksumsInDirectory hash includeP excludeP (some lines) dir =
        Except.ok r ∧
      r.missing = (((parseStored lines).filter fun e =>
          (lookupFile dir e.1).isNone).map fun e => e.1) ∧
      r.verified = (((parseStored lines).filter
          (verifiedPred hash dir)).map fun e => e.1) ∧
      r.failed = (parseStored lines).filterMap (failEntryOf hash dir) ∧
      r.extra = (((dir.filter fun e =>
          shouldIncludeFile includeP excludeP e.1).map fun e => e.1).filter
          fun n => ¬ ((parseStored lines).map fun e => e.1).contains n) ∧
      (∀ n ∈ r.verified, n ∉ r.missing) ∧
      (∀ n ∈ r.verified, ∀ f ∈ r.failed, f.filename ≠ n) ∧
      (∀ n ∈ r.missing, ∀ f ∈ r.failed, f.filename ≠ n) ∧
      (∀ n ∈ r.extra, n ∉ r.verified ∧ n ∉ r.missing ∧
        ∀ f ∈ r.failed, f.filename ≠ n) := by
  have hnd := parseStored_keys_nodup lines
  have hinj := List.inj_on_of_nodup_map hnd
  refine ⟨⟨((parseStored lines).filter (verifiedPred hash dir)).map fun e => e.1,
      (parseStored lines).filterMap (failEntryOf hash dir),
      (((parseStored lines).filter fun e =>
        (lookupFile dir e.1).isNone).map fun e => e.1),
      (((dir.filter fun e =>
        shouldIncludeFile includeP excludeP e.1).map fun e => e.1).filter
        fun n => ¬ ((parseStored lines).map fun e => e.1).contains n)⟩,
    ?_, rfl, rfl, rfl, rfl, ?_, ?_, ?_, ?_⟩
  · rw [verifyChecksumsInDirectory]
    rw [foldl_classifyEntry_spec hash dir (parseStored lines) ⟨[], [], [], []⟩]
    simp only [List.nil_append]
  · intro n hv hm
    simp only [List.mem_map, List.mem_filter] at hv hm
    obtain ⟨e₁, ⟨he₁, hp₁⟩, rfl⟩ := hv
    obtain ⟨e₂, ⟨he₂, hp₂⟩, hkey⟩ := hm
    have := hinj he₂ he₁ hkey
    subst this
    exact absurd hp₂ (by simp [(verifiedPred_not_missing hp₁).1])
  · intro n hv f hf hcon
    simp only [List.mem_map, List.mem_filter] at hv
    obtain ⟨e₁, ⟨he₁, hp₁⟩, rfl⟩ := hv
    obtain ⟨e₂, he₂, hsome⟩ := List.mem_filterMap.1 hf
    have hkey : e₂.1 = e₁.1 := (failEntryOf_filename hash dir e₂ f hsome) ▸ hcon
    have := hinj he₂ he₁ hkey
    subst this
    rw [(verifiedPred_not_missing hp₁).2] at hsome
    cases hsome
  · intro n hm f hf hcon
    simp only [List.mem_map, List.mem_filter] at hm
    obtain ⟨e₁, ⟨he₁, hp₁⟩, rfl⟩ := hm
    obtain ⟨e₂, he₂, hsome⟩ := List.mem_filterMap.1 hf
    have hkey : e₂.1 = e₁.1 := (failEntryOf_filename hash dir e₂ f hsome) ▸ hcon
    have := hinj he₂ he₁ hkey
    subst this
    rw [missing_not_failed hp₁] at hsome
    cases hsome
  · intro n hx
    simp only [List.mem_filter, decide_eq_true_eq] at hx
    have hnotin : n ∉ (parseStored lines).map fun e => e.1 := by
      intro hmem
      exact hx.2 (by simpa using contains_iff_mem.2 hmem)
    refine ⟨?_, ?_, ?_⟩
    · intro hv
      simp only [List.mem_map, List.mem_filter] at hv
      obtain ⟨e₁, ⟨he₁, _⟩, rfl⟩ := hv
      exact hnotin (List.mem_map_of_mem _ he₁)
    · intro hm
      simp only [List.mem_map, List.mem_filter] at hm
      obtain ⟨e₁, ⟨he₁, _⟩, rfl⟩ := hm
      exact hnotin (List.mem_map_of_mem _ he₁)
    · intro f hf hcon
      obtain ⟨e₂, he₂, hsome⟩ := List.mem_filterMap.1 hf
      have hkey := failEntryOf_filename hash dir e₂ f hsome
      exact hnotin (hcon ▸ hkey ▸ List.mem_map_of_mem _ he₂)

/-! ## Round trip: generate then verify on an unmodified directory -/

lemma generateChecksums_entry_mem {hash : Str → Str}
    {includeP excludeP : List Pattern} {dir : DirListing} {e : Str × Str}
    (h : e ∈ generateChecksums hash includeP excludeP dir) :
    ∃ c, (e.1, Except.ok c) ∈ dir ∧ e.2 = hash c ∧
      shouldIncludeFile includeP excludeP e.1 = true := by
  obtain ⟨f, hf, hfe⟩ := List.mem_filterMap.1 h
  by_cases hinc : shouldIncludeFile includeP excludeP f.1
  · rw [if_pos hinc] at hfe
    cases hd : f.2 with
    | error m => rw [hd] at hfe; cases hfe
    | ok c =>
      rw [hd] at hfe
      cases hfe
      exact ⟨c, by rw [← hd]; exact hf, rfl, hinc⟩
  · rw [if_neg hinc] at hfe
    cases hfe

lemma generateChecksums_map_fst (hash : Str → Str)
    (includeP excludeP : List Pattern) (dir : DirListing)
    (hread : ∀ e ∈ dir, shouldIncludeFile includeP excludeP e.1 = true →
      ∃ c, e.2 = Except.ok c) :
    (generateChecksums hash includeP excludeP dir).map (fun e => e.1) =
      (dir.filter fun e => shouldIncludeFile includeP excludeP e.1).map
        fun e => e.1 := by
  induction dir with
  | nil => rfl
  | cons e rest ih =>
    have ih' := ih fun f hf => hread f (by simp [hf])
    by_cases hinc : shouldIncludeFile includeP excludeP e.1
    · obtain ⟨c, hc⟩ := hread e (by simp) hinc
      simp [generateChecksums, List.filter_cons, hinc, hc] at ih' ⊢
      exact ih'
    · simp [generateChecksums, List.filter_cons, hinc] at ih' ⊢
      exact ih'

lemma lookupFile_of_mem {dir : DirListing}
    (hnd : (dir.map fun e => e.1).Nodup) {n : Str} {d : FileData}
    (h : (n, d) ∈ dir) : lookupFile dir n = some d := by
  induction dir with
  | nil => cases h
  | cons f rest ih =>
    simp only [List.map_cons, List.nodup_cons] at hnd
    rcases List.mem_cons.1 h with rfl | hmem
    · simp [lookupFile, List.find?_cons_of_pos]
    · have hne : f.1 ≠ n := by
        intro hcon
        exact hnd.1 (hcon ▸ List.mem_map_of_mem (fun e => e.1) hmem)
      have := ih hnd.2 hmem
      rw [lookupFile, List.find?_cons_of_neg _ (by simpa using fun hc => hne hc)]
      exact this

lemma lookupFile_append_of_some {dir : DirListing} {n : Str} {d : FileData}
    (h : lookupFile dir n = some d) (x : Str × FileData) :
    lookupFile (dir ++ [x]) n = some d := by
  induction dir with
  | nil => simp [lookupFile] at h
  | cons f rest ih =>
    rw [lookupFile] at h ⊢
    rw [List.cons_append]
    cases hf : (f.1 == n) with
    | true =>
      simp only [List.find?_cons, hf] at h ⊢
      exact h
    | false =>
      simp only [List.find?_cons, hf] at h ⊢
      have := ih (by rw [lookupFile]; exact h)
      rw [lookupFile] at this
      exact this

/-- C1 counterexample, in two parts.  First: on a directory with no
included files — here the empty directory, all of whose files are
vacuously readable — generation writes no digest file (`if checksums:`
guards the write), so the subsequent verification returns a top-level
error instead of the `VerificationResult` with empty lists that the claim
promises.  Second: for a readable included file whose name ends in
whitespace — here `'a.txt '` — generation writes the data line
`'ff00  a.txt '`, but the verify loop's `line.strip()` drops the trailing
space, so the stored name is `'a.txt'`, no such file exists, and the file
is reported missing and extra instead of verified. -/
theorem roundtrip_counterexample :
    roundTripDirectory (fun _ => "ff".data) [] [] "1".data "sha256".data
      "T".data [] = Except.error ("no .shasum file found".data) ∧
    roundTripDirectory (fun _ => "ff00".data) [] [] "1".data "sha256".data
      "T".data [("a.txt ".data, Except.ok "hello".data)] =
      Except.ok ⟨[], [], ["a.txt".data], ["a.txt ".data]⟩ := by
  exact ⟨rfl, rfl⟩

/-- C1 (amended): for a directory of readable files with at least one
included file, and whose filenames survive a digest line unchanged — no
embedded newline and a non-whitespace final character, since the verify
loop strips each stored line and a stripped trailing-whitespace name names
a different (absent) file — generate-then-verify on the unmodified
directory yields a result whose verified list holds exactly the included
files and whose failed, missing and extra lists are empty.  Hypotheses:
distinct filenames; filenames digest-line safe as above; included files
readable; hex digests well formed. -/
theorem roundtrip_amended (hash : Str → Str) (includeP excludeP : List Pattern)
    (version alg ts : Str) (dir : DirListing)
    (hnodup : (dir.map fun e => e.1).Nodup)
    (hvalid : (dir.all fun e => validFileName e.1) = true)
    (hread : (dir.all fun e =>
      !(shouldIncludeFile includeP excludeP e.1) || e.2.isOk) = true)
    (hhash : (dir.all fun e => match e.2 with
      | .ok c => validHashStr (hash c)
      | .error _ => true) = true)
    (hne : (generateChecksums hash includeP excludeP dir).isEmpty = false) :
    ∃ r, roundTripDirectory hash includeP excludeP version alg ts dir =
        Except.ok r ∧
      (∀ n, n ∈ r.verified ↔
        n ∈ (dir.filter fun e =>
          shouldIncludeFile includeP excludeP e.1).map fun e => e.1) ∧
      r.failed = [] ∧ r.missing = [] ∧ r.extra = [] := by
  classical
  set cs := generateChecksums hash includeP excludeP dir with hcs
  have hread' : ∀ e ∈ dir, shouldIncludeFile includeP excludeP e.1 = true →
      ∃ c, e.2 = Except.ok c := by
    intro e he hinc
    have := (List.all_eq_true.1 hread) e he
    rw [hinc] at this
    simp only [Bool.not_true, Bool.false_or] at this
    cases hd : e.2 with
    | error m => rw [hd] at this; cases this
    | ok c => exact ⟨c, rfl⟩
  have hkeys : cs.map (fun e => e.1) =
      (dir.filter fun e => shouldIncludeFile includeP excludeP e.1).map
        fun e => e.1 :=
    generateChecksums_map_fst hash includeP excludeP dir hread'
  have hkeysnd : (cs.map fun e => e.1).Nodup := by
    rw [hkeys]
    exact ((List.filter_sublist dir).map fun e => e.1).nodup hnodup
  have hv : ∀ e ∈ cs, validFileName e.1 = true ∧ validHashStr e.2 = true := by
    intro e he
    obtain ⟨c, hcdir, hh, _⟩ := generateChecksums_entry_mem he
    constructor
    · have := (List.all_eq_true.1 hvalid) (e.1, Except.ok c) hcdir
      exact this
    · have := (List.all_eq_true.1 hhash) (e.1, Except.ok c) hcdir
      simpa [hh] using this
  have hstored : parseStored (writeShasumLines version alg ts cs) =
      (sortByName cs).map fun e => (e.1, lowerStr e.2) :=
    parseStored_writeShasumLines version alg ts cs hv hkeysnd
  -- the listing after generation: original files plus the written `.shasum`
  set lines := writeShasumLines version alg ts cs with hlines
  set dirAfter : DirListing :=
    dir ++ [(shasumFilename, Except.ok (joinLines lines))] with hdirAfter
  -- every stored entry verifies against the unmodified listing
  have hver : ∀ s ∈ parseStored lines, verifiedPred hash dirAfter s = true := by
    intro s hs
    rw [hstored] at hs
    obtain ⟨e, he, rfl⟩ := List.mem_map.1 hs
    have hecs : e ∈ cs := (sortByName_perm cs).subset he
    obtain ⟨c, hcdir, hh, hinc⟩ := generateChecksums_entry_mem hecs
    have hlk : lookupFile dirAfter e.1 = some (Except.ok c) :=
      lookupFile_append_of_some (lookupFile_of_mem hnodup hcdir) _
    rw [verifiedPred]
    rw [hlk]
    rw [hh, lowerStr_idem]
    simp
  have hverify := verify_directory_classification hash includeP excludeP
    lines dirAfter
  obtain ⟨r, hok, hmis, hverf, hfail, hext, _, _, _, _⟩ := hverify
  have hmain : roundTripDirectory hash includeP excludeP version alg ts dir =
      Except.ok r := by
    rw [roundTripDirectory]
    rw [processDirectoryGenerate]
    rw [← hcs, hne]
    simp only [Bool.false_eq_true, if_false, ← hlines, ← hdirAfter]
    exact hok
  have hcomp : ((fun e : Str × Str => e.1) ∘
      fun e : Str × Str => (e.1, lowerStr e.2)) = fun e : Str × Str => e.1 := rfl
  refine ⟨r, hmain, ?_, ?_, ?_, ?_⟩
  · intro n
    rw [hverf, List.filter_eq_self.2 hver, hstored, List.map_map, hcomp, ← hkeys]
    exact ((sortByName_perm cs).map fun e => e.1).mem_iff
  · rw [hfail]
    apply List.filterMap_eq_nil.2
    intro s hs
    exact (verifiedPred_not_missing (hver s hs)).2
  · rw [hmis]
    apply List.eq_nil_of_length_eq_zero
    rw [List.length_map]
    rw [List.length_eq_zero]
    apply List.filter_eq_nil.2
    intro s hs
    have h1 := (verifiedPred_not_missing (hver s hs)).1
    simp [h1]
  · rw [hext]
    apply List.filter_eq_nil.2
    intro n hn
    -- n is an included current file; the `.shasum` entry itself is filtered out
    have hn' : n ∈ (dir.filter fun e =>
        shouldIncludeFile includeP excludeP e.1).map fun e => e.1 := by
      have hsplit : dirAfter.filter (fun e =>
          shouldIncludeFile includeP excludeP e.1) =
          dir.filter fun e => shouldIncludeFile includeP excludeP e.1 := by
        rw [hdirAfter, List.filter_append]
        have : shouldIncludeFile includeP excludeP shasumFilename = false := by
          rw [shouldIncludeFile, if_pos (Or.inl rfl)]
        simp [this]
      rw [hsplit] at hn
      exact hn
    have hnstored : n ∈ (parseStored lines).map fun e => e.1 := by
      rw [hstored, List.map_map, hcomp,
        ((sortByName_perm cs).map fun e => e.1).mem_iff, hkeys]
      exact hn'
    have hcontains := contains_iff_mem.2 hnstored
    simp only [decide_eq_true_eq, Decidable.not_not]
    exact hcontains

/-- Concrete hash function for witnesses: a fixed well-formed hex string. -/
def rtHash : Str → Str := fun _ => "ff00".data

/-- Concrete one-file directory for witnesses. -/
def rtDir : DirListing := [("a.txt".data, Except.ok "hello".data)]

/-- Witness for the amended round-trip theorem at a concrete directory. -/
theorem roundtrip_amended_witness :
    (rtDir.map fun e => e.1).Nodup ∧
    ∃ r, roundTripDirectory rtHash [] [] "1.0".data "sha256".data "TS".data
        rtDir = Except.ok r ∧
      (∀ n, n ∈ r.verified ↔
        n ∈ (rtDir.filter fun e =>
          shouldIncludeFile [] [] e.1).map fun e => e.1) ∧
      r.failed = [] ∧ r.missing = [] ∧ r.extra = [] :=
  ⟨by decide,
    roundtrip_amended rtHash [] [] "1.0".data "sha256".data "TS".data rtDir
      (by decide) (by decide) (by decide) (by decide) (by decide)⟩

/-! ## Shape of the written per-directory digest file -/

/-- `write_shasum_file` as a file-system action: the file is opened with
mode 'w' (truncate), so the previous content does not influence the new
content. -/
def writeShasumFileAction (_prior : Option (List Str)) (version alg ts : Str)
    (checksums : List (Str × Str)) : Option (List Str) :=
  some (writeShasumLines version alg ts checksums)

/-- C8 counterexample: a processed directory with no included files gets no
digest file written at all (`if checksums:` guards the write in
`process_single_directory`), contradicting "for each processed directory,
generation writes a fresh digest file". -/
theorem write_shape_counterexample :
    processDirectoryGenerate (fun _ => "ab".data) [] [] "1".data "s".data
      "T".data [] = none := by
  rfl

/-- C8 (amended): for each processed directory with at least one
successfully hashed included file, the written digest file is one header
comment line, then one data line `hash ++ two spaces ++ filename` per
successfully hashed included file with the lines sorted by filename and
filenames free of path separators (given the listing's names are), then the
end-marker line; and the write is a full overwrite, independent of prior
content. -/
theorem write_shape_amended (hash : Str → Str)
    (includeP excludeP : List Pattern) (version alg ts : Str)
    (dir : DirListing) (hsep : (dir.all fun e => ! nameHasSep e.1) = true)
    (hne : (generateChecksums hash includeP excludeP dir).isEmpty = false) :
    processDirectoryGenerate hash includeP excludeP version alg ts dir =
        some (shasumHeader version alg ts ::
          (sortByName (generateChecksums hash includeP excludeP dir)).map
            dataLine ++ [endMarker]) ∧
      List.Pairwise entryLe
        (sortByName (generateChecksums hash includeP excludeP dir)) ∧
      List.Perm (sortByName (generateChecksums hash includeP excludeP dir))
        (generateChecksums hash includeP excludeP dir) ∧
      (∀ e ∈ sortByName (generateChecksums hash includeP excludeP dir),
        nameHasSep e.1 = false) ∧
      (∃ t, shasumHeader version alg ts = '#' :: t) ∧
      (∀ prior₁ prior₂ : Option (List Str),
        writeShasumFileAction prior₁ version alg ts
          (generateChecksums hash includeP excludeP dir) =
        writeShasumFileAction prior₂ version alg ts
          (generateChecksums hash includeP excludeP dir)) := by
  refine ⟨?_, sortByName_pairwise _, sortByName_perm _, ?_,
    shasumHeader_cons version alg ts, fun p₁ p₂ => rfl⟩
  · rw [processDirectoryGenerate, hne]
    simp [writeShasumLines]
  · intro e he
    have hecs := (sortByName_perm _).subset he
    obtain ⟨c, hcdir, _, _⟩ := generateChecksums_entry_mem hecs
    have := (List.all_eq_true.1 hsep) (e.1, Except.ok c) hcdir
    simpa using this

/-- Witness for the amended write-shape theorem at a concrete directory. -/
theorem write_shape_amended_witness :
    ((rtDir.all fun e => ! nameHasSep e.1) = true) ∧
    (processDirectoryGenerate rtHash [] [] "1.0".data "sha256".data "TS".data
        rtDir =
      some (shasumHeader "1.0".data "sha256".data "TS".data ::
        (sortByName (generateChecksums rtHash [] [] rtDir)).map dataLine ++
        [endMarker]) ∧
      List.Pairwise entryLe (sortByName (generateChecksums rtHash [] [] rtDir)) ∧
      List.Perm (sortByName (generateChecksums rtHash [] [] rtDir))
        (generateChecksums rtHash [] [] rtDir) ∧
      (∀ e ∈ sortByName (generateChecksums rtHash [] [] rtDir),
        nameHasSep e.1 = false) ∧
      (∃ t, shasumHeader "1.0".data "sha256".data "TS".data = '#' :: t) ∧
      (∀ prior₁ prior₂ : Option (List Str),
        writeShasumFileAction prior₁ "1.0".data "sha256".data "TS".data
          (generateChecksums rtHash [] [] rtDir) =
        writeShasumFileAction prior₂ "1.0".data "sha256".data "TS".data
          (generateChecksums rtHash [] [] rtDir))) :=
  ⟨by decide,
    write_shape_amended rtHash [] [] "1.0".data "sha256".data "TS".data rtDir
      (by decide) (by decide)⟩

/-! ## Monolithic verification and clone path-independence

`verify_monolithic_file` (dazzlesum.py:2364-2451) parses the tree-wide
file, remembering the `# Root directory:` header only for an informational
log message; every stored relative path is resolved against the
user-supplied target directory, modelled here as a lookup function from
relative-path strings to file read outcomes.  The platform is POSIX, where
`relative_path.replace('/', os.sep)` is the identity. -/

/-- The header marker `'# Root directory:'`. -/
def rootHeaderMarker : Str := "# Root directory:".data

/-- The text after the first `':'`, as `line.split(':', 1)[1]`. -/
def afterFirstColon : Str → Str
  | [] => []
  | c :: rest => if c = ':' then rest else afterFirstColon rest

/-- `relative_path.replace('/', os.sep)`: the identity on POSIX. -/
def replaceSlashWithOsSep (s : Str) : Str := s

/-- One iteration of the monolithic reading loop (dazzlesum.py:2381-2393):
a root-directory header updates the remembered root; a non-blank
non-comment line that splits in two stores the lower-cased hash under the
(separator-normalized) relative path. -/
def parseMonoLine (st : Option Str × List (Str × Str)) (line : Str) :
    Option Str × List (Str × Str) :=
  let s := strip line
  if rootHeaderMarker.isPrefixOf s then
    (some (strip (afterFirstColon s)), st.2)
  else if ¬ blankOrComment s then
    match splitTwoSpace s with
    | some (h, f) =>
      (st.1, dictInsert (replaceSlashWithOsSep f) (lowerStr h) st.2)
    | none => st
  else st

/-- The remembered root and the stored dictionary of a monolithic file. -/
def parseMonoLines (lines : List Str) : Option Str × List (Str × Str) :=
  lines.foldl parseMonoLine (none, [])

/-- Per-entry classification of monolithic verification
(dazzlesum.py:2410-2442), with `fs` the user-specified target directory as
relative-path lookup. -/
def classifyEntryMono (hash : Str → Str) (fs : Str → Option FileData)
    (r : VerifyResult) (e : Str × Str) : VerifyResult :=
  match fs e.1 with
  | none => { r with missing := r.missing ++ [e.1] }
  | some (.error msg) => { r with failed := r.failed ++ [⟨e.1, .ioError msg⟩] }
  | some (.ok c) =>
    if lowerStr (hash c) = lowerStr e.2 then
      { r with verified := r.verified ++ [e.1] }
    else
      { r with failed := r.failed ++ [⟨e.1, .mismatch e.2 (hash c)⟩] }

/-- `verify_monolithic_file` on a file's lines against a target directory:
classify every stored entry; extra-file detection is not performed in
monolithic mode (dazzlesum.py:2444-2446). -/
def verifyMonolithicFile (hash : Str → Str) (lines : List Str)
    (fs : Str → Option FileData) : VerifyResult :=
  ((parseMonoLines lines).2).foldl (classifyEntryMono hash fs) ⟨[], [], [], []⟩

/-- The pure stored-dictionary step of the reading loop, ignoring the
remembered root. -/
def parseMonoData (acc : List (Str × Str)) (line : Str) : List (Str × Str) :=
  let s := strip line
  if rootHeaderMarker.isPrefixOf s then acc
  else if ¬ blankOrComment s then
    match splitTwoSpace s with
    | some (h, f) => dictInsert (replaceSlashWithOsSep f) (lowerStr h) acc
    | none => acc
  else acc

lemma parseMonoLine_snd (st : Option Str × List (Str × Str)) (line : Str) :
    (parseMonoLine st line).2 = parseMonoData st.2 line := by
  rw [parseMonoLine, parseMonoData]
  by_cases h1 : rootHeaderMarker.isPrefixOf (strip line)
  · simp [h1]
  · simp only [h1, if_false]
    by_cases h2 : blankOrComment (strip line)
    · simp [h2]
    · simp only [h2]
      cases hs : splitTwoSpace (strip line) with
      | none => simp
      | some p => simp

/-- Two monolithic files that differ at most in root-directory header
lines. -/
def rootHeaderOnlyDiff : List Str → List Str → Bool
  | [], [] => true
  | a :: l1, b :: l2 =>
    (a == b ||
      (rootHeaderMarker.isPrefixOf (strip a) &&
        rootHeaderMarker.isPrefixOf (strip b))) &&
      rootHeaderOnlyDiff l1 l2
  | _, _ => false

lemma parseMono_snd_rootIndependent :
    ∀ {l1 l2 : List Str}, rootHeaderOnlyDiff l1 l2 = true →
    ∀ acc : List (Str × Str),
    (l1.foldl parseMonoData acc) = l2.foldl parseMonoData acc := by
  intro l1
  induction l1 with
  | nil =>
    intro l2 h acc
    cases l2 with
    | nil => rfl
    | cons b t => simp [rootHeaderOnlyDiff] at h
  | cons a t1 ih =>
    intro l2 h acc
    cases l2 with
    | nil => simp [rootHeaderOnlyDiff] at h
    | cons b t2 =>
      rw [rootHeaderOnlyDiff, Bool.and_eq_true, Bool.or_eq_true] at h
      rw [List.foldl_cons, List.foldl_cons]
      rcases h.1 with heq | hroot
      · rw [(by simpa using heq : a = b)]
        exact ih h.2 _
      · rw [Bool.and_eq_true] at hroot
        have ha : parseMonoData acc a = acc := by
          rw [parseMonoData]
          simp [hroot.1]
        have hb : parseMonoData acc b = acc := by
          rw [parseMonoData]
          simp [hroot.2]
        rw [ha, hb]
        exact ih h.2 _

/-- The stored dictionary only depends on `parseMonoData` folding. -/
lemma parseMonoLines_snd (lines : List Str) :
    (parseMonoLines lines).2 = lines.foldl parseMonoData [] := by
  rw [parseMonoLines]
  suffices h : ∀ st : Option Str × List (Str × Str),
      (lines.foldl parseMonoLine st).2 = lines.foldl parseMonoData st.2 by
    exact h (none, [])
  induction lines with
  | nil => intro st; rfl
  | cons l rest ih =>
    intro st
    rw [List.foldl_cons, List.foldl_cons, ih, parseMonoLine_snd]

/-- C5: clone verification path-independence.  Two tree-wide digest files
that differ only in their recorded `# Root directory:` header lines
produce identical verification results against any target directory: the
recorded root never influences resolution or classification. -/
theorem monolithic_root_path_independence (hash : Str → Str)
    (fs : Str → Option FileData) (l1 l2 : List Str)
    (h : rootHeaderOnlyDiff l1 l2 = true) :
    verifyMonolithicFile hash l1 fs = verifyMonolithicFile hash l2 fs := by
  rw [verifyMonolithicFile, verifyMonolithicFile, parseMonoLines_snd,
    parseMonoLines_snd, parseMono_snd_rootIndependent h]

/-- Witness for clone path-independence: the same data line under two
different recorded roots verifies identically. -/
theorem monolithic_root_path_independence_witness :
    rootHeaderOnlyDiff
        ["# Root directory: /data/projects".data, "ff00  x.txt".data]
        ["# Root directory: /mnt/clone".data, "ff00  x.txt".data] = true ∧
      verifyMonolithicFile rtHash
          ["# Root directory: /data/projects".data, "ff00  x.txt".data]
          (fun n => if n = "x.txt".data then some (Except.ok "hi".data)
            else none) =
        verifyMonolithicFile rtHash
          ["# Root directory: /mnt/clone".data, "ff00  x.txt".data]
          (fun n => if n = "x.txt".data then some (Except.ok "hi".data)
            else none) :=
  ⟨by decide,
    monolithic_root_path_independence rtHash _ _ _ (by decide)⟩

/-! ## MonolithicWriter: streaming writes with atomic commit

`MonolithicWriter` (dazzlesum.py:938-1117) writes to `<output>.tmp` and
promotes it to the target only in a successful `close`.  The model tracks
the two file contents (as line lists) and the `_is_open` flag; the POSIX
branch of `_atomic_replace` (plain `rename`, dazzlesum.py:1115-1117) is
modelled.  The interactive overwrite prompt of non-resume `open` is outside
the model (it raises before anything is written). -/

/-- The two files the writer touches: committed target and temporary file,
each `none` when absent on disk. -/
structure WriterFs where
  target : Option (List Str)
  temp : Option (List Str)
deriving DecidableEq, Repr

/-- Writer state: file system plus the `_is_open` flag. -/
structure WriterState where
  fs : WriterFs
  isOpen : Bool
deriving DecidableEq, Repr

/-- The two header lines of a fresh monolithic file
(dazzlesum.py:997-999). -/
def monoHeaderLines (version alg ts root : Str) : List Str :=
  ["# Dazzle monolithic checksum file v".data ++ version ++ " - ".data ++
    alg ++ " - ".data ++ ts,
   "# Root directory: ".data ++ root]

/-- Resume `open` strips a trailing end-marker from the copied target
(dazzlesum.py:983-989), so appends do not leave a marker mid-file. -/
def stripFooterLines (ls : List Str) : List Str :=
  if ls.getLast? = some endMarker then ls.dropLast else ls

/-- `MonolithicWriter.open` (dazzlesum.py:967-1009): resume mode copies the
existing target to the temp path and strips its footer; otherwise a fresh
temp file is created holding the header. -/
def writerOpen (resume : Bool) (version alg ts root : Str) (fs0 : WriterFs) :
    WriterState :=
  if resume ∧ fs0.target.isSome then
    ⟨{ fs0 with temp := some (stripFooterLines (fs0.target.getD [])) }, true⟩
  else
    ⟨{ fs0 with temp := some (monoHeaderLines version alg ts root) }, true⟩

/-- `MonolithicWriter.append_directory_checksums` (dazzlesum.py:1011-1050)
as its effect on the temp file: the directory's data lines are appended and
flushed.  The writer must be open; a closed writer raises, modelled as no
state change (the runner below only appends while open). -/
def writerAppend (entries : List Str) (st : WriterState) : WriterState :=
  if st.isOpen then
    ⟨{ st.fs with temp := st.fs.temp.map fun t => t ++ entries }, st.isOpen⟩
  else st

/-- `MonolithicWriter.close` (dazzlesum.py:1052-1081): a no-op when not
open; on success the footer is written and the temp file atomically
replaces the target (POSIX `rename`); on failure the temp file is removed
and the target left untouched. -/
def writerClose (success : Bool) (st : WriterState) : WriterState :=
  if st.isOpen then
    if success then
      match st.fs.temp with
      | some t => ⟨⟨some (t ++ [endMarker]), none⟩, false⟩
      | none => ⟨⟨st.fs.target, none⟩, false⟩
    else ⟨⟨st.fs.target, none⟩, false⟩
  else st

/-- A whole tree-wide run (`process_directory_tree`,
dazzlesum.py:2595-2605 with `__exit__`, dazzlesum.py:958-965): open, append
one entry block per directory, and close — with `success=False` when a
failure interrupts the walk after `i` directories, `success=True` on normal
completion. -/
def runMonolithic (resume : Bool) (version alg ts root : Str)
    (dirEntries : List (List Str)) (failAt : Option Nat) (fs0 : WriterFs) :
    WriterState :=
  let st0 := writerOpen resume version alg ts root fs0
  match failAt with
  | none => writerClose true (dirEntries.foldl (fun st es => writerAppend es st) st0)
  | some i =>
    writerClose false
      ((dirEntries.take i).foldl (fun st es => writerAppend es st) st0)

lemma foldl_writerAppend_spec (l : List (List Str)) :
    ∀ fs0 : WriterFs, ∀ t0 : List Str,
    l.foldl (fun st es => writerAppend es st) ⟨{ fs0 with temp := some t0 }, true⟩ =
      ⟨{ fs0 with temp := some (t0 ++ l.join) }, true⟩ := by
  induction l with
  | nil => intro fs0 t0; simp
  | cons es rest ih =>
    intro fs0 t0
    have hstep : writerAppend es ⟨{ fs0 with temp := some t0 }, true⟩ =
        ⟨{ fs0 with temp := some (t0 ++ es) }, true⟩ := by
      simp [writerAppend]
    rw [List.foldl_cons, hstep, ih]
    simp

/-- C2: atomic commit.  In every tree-wide run: (a) if a failure occurs
before the final commit — the walk stops after any number of directories
and `close(success=False)` runs — the temp file is removed and the
previously committed target is byte-for-byte unchanged; (b) appends never
touch the target mid-run; (c) only the successful close replaces the
target, with the completed temp content (footer appended) installed by the
atomic rename; (d) the duplicated failure close of `__exit__` after an
exception is a no-op. -/
theorem monolithic_atomic_commit (resume : Bool) (version alg ts root : Str)
    (dirEntries : List (List Str)) (fs0 : WriterFs) :
    (∀ i : Nat,
      (runMonolithic resume version alg ts root dirEntries (some i) fs0).fs =
        ⟨fs0.target, none⟩) ∧
    (∀ i : Nat,
      ((dirEntries.take i).foldl (fun st es => writerAppend es st)
        (writerOpen resume version alg ts root fs0)).fs.target = fs0.target) ∧
    (runMonolithic resume version alg ts root dirEntries none fs0).fs =
      ⟨some ((if resume ∧ fs0.target.isSome then
          stripFooterLines (fs0.target.getD [])
        else monoHeaderLines version alg ts root) ++
        dirEntries.join ++ [endMarker]), none⟩ ∧
    (∀ st : WriterState, writerClose false (writerClose false st) =
      writerClose false st) := by
  have hopen : ∀ fsx : WriterFs, writerOpen resume version alg ts root fsx =
      ⟨{ fsx with temp := some (if resume ∧ fsx.target.isSome then
          stripFooterLines (fsx.target.getD [])
        else monoHeaderLines version alg ts root) }, true⟩ := by
    intro fsx
    rw [writerOpen]
    by_cases h : resume ∧ fsx.target.isSome
    · rw [if_pos h, if_pos h]
    · rw [if_neg h, if_neg h]
  refine ⟨?_, ?_, ?_, ?_⟩
  · intro i
    rw [runMonolithic]
    simp only [hopen, foldl_writerAppend_spec]
    rw [writerClose]
    simp
  · intro i
    simp only [hopen, foldl_writerAppend_spec]
  · rw [runMonolithic]
    simp only [hopen, foldl_writerAppend_spec]
    rw [writerClose]
    simp [List.append_assoc]
  · intro st
    by_cases h : st.isOpen = true
    · have hc : writerClose false st = ⟨⟨st.fs.target, none⟩, false⟩ := by
        simp [writerClose, h]
      rw [hc]
      simp [writerClose]
    · simp [writerClose, h]

/-! ## Resume idempotence for the tree-wide file

For the resume protocol the file is modelled one level above raw text: a
line is either a comment or a data entry carrying its hash and its
tree-relative path as a list of segments (directory segments then
filename); the raw-text round trip of data lines is covered by the
per-directory development above.  A tree is the list of processed
directories in walk order, each with its (identical in both runs, since
the tree is unchanged) generated checksums. -/

/-- One line of the tree-wide file: comment, or data entry. -/
inductive MonoLine where
  | comment (text : Str)
  | entry (hashHex : Str) (relpath : List Str)
deriving DecidableEq, Repr

/-- The data lines a directory contributes
(`append_directory_checksums`, dazzlesum.py:1011-1050): entries sorted by
filename, relative path = directory segments plus filename. -/
def dirEntryLines (d : List Str × List (Str × Str)) : List MonoLine :=
  (sortByName d.2).map fun e => MonoLine.entry e.2 (d.1 ++ [e.1])

/-- The code's append: every entry of the directory is written.  The
resume planner's recorded entry set is not an input —
`append_directory_checksums` never reads `existing_monolithic_entries`. -/
def appendDirectoryAdt (acc : List MonoLine)
    (d : List Str × List (Str × Str)) : List MonoLine :=
  acc ++ dirEntryLines d

/-- The append the claim describes: consult the recorded entry set and
suppress entries already present.  Defined only from the claim's wording,
to be compared with the code's `appendDirectoryAdt`. -/
def claimedSuppressingAppend (existing : List (List Str))
    (acc : List MonoLine) (d : List Str × List (Str × Str)) : List MonoLine :=
  acc ++ (dirEntryLines d).filter fun l =>
    match l with
    | .entry _ p => ¬ existing.contains p
    | .comment _ => true

/-- The end-marker line of the tree-wide file. -/
def footerAdt : MonoLine := .comment endMarker

/-- A complete non-resume generation run: header comments, each
non-empty directory's entries in walk order (`if checksums:` skips empty
ones), end marker, committed on close. -/
def monoRunAdt (hdr : List Str)
    (tree : List (List Str × List (Str × Str))) : List MonoLine :=
  tree.foldl
    (fun acc d => if d.2.isEmpty then acc else appendDirectoryAdt acc d)
    (hdr.map MonoLine.comment) ++ [footerAdt]

/-- `_initialize_resume_state`, tree-wide part (dazzlesum.py:2093-2110):
every data line records its path's directory as complete
(`processed_directories`) and the exact relative path as an existing entry
(`existing_monolithic_entries`). -/
def resumeStateAdt (lines : List MonoLine) :
    List (List Str) × List (List Str) :=
  lines.foldl
    (fun st l =>
      match l with
      | .comment _ => st
      | .entry _ p => (st.1 ++ [p.dropLast], st.2 ++ [p]))
    ([], [])

/-- Resume `open` strips the trailing end marker (dazzlesum.py:983-989). -/
def stripFooterAdt (ls : List MonoLine) : List MonoLine :=
  if ls.getLast? = some footerAdt then ls.dropLast else ls

/-- The second, resumed run over the unchanged tree: parse the existing
file, copy it minus footer, skip directories marked complete
(`_should_skip_directory`) and directories with no checksums, append the
rest, finish with the end marker. -/
def monoResumeRunAdt (hdr : List Str)
    (tree : List (List Str × List (Str × Str))) : List MonoLine :=
  let prior := monoRunAdt hdr tree
  let rs := resumeStateAdt prior
  tree.foldl
    (fun acc d =>
      if rs.1.contains d.1 then acc
      else if d.2.isEmpty then acc
      else appendDirectoryAdt acc d)
    (stripFooterAdt prior) ++ [footerAdt]

/-- The relative paths of a file's data lines. -/
def dataPaths (lines : List MonoLine) : List (List Str) :=
  lines.filterMap fun l =>
    match l with
    | .entry _ p => some p
    | .comment _ => none

lemma resumeStateAdt_spec (lines : List MonoLine) :
    resumeStateAdt lines =
      ((dataPaths lines).map List.dropLast, dataPaths lines) := by
  rw [resumeStateAdt]
  suffices h : ∀ st : List (List Str) × List (List Str),
      lines.foldl
        (fun st l =>
          match l with
          | .comment _ => st
          | .entry _ p => (st.1 ++ [p.dropLast], st.2 ++ [p])) st =
      (st.1 ++ (dataPaths lines).map List.dropLast, st.2 ++ dataPaths lines) by
    simpa using h ([], [])
  induction lines with
  | nil => intro st; simp [dataPaths]
  | cons l rest ih =>
    intro st
    cases l with
    | comment t => simp [dataPaths, List.filterMap_cons, ih st]
    | entry hh p =>
      rw [List.foldl_cons]
      rw [ih (st.1 ++ [p.dropLast], st.2 ++ [p])]
      simp [dataPaths, List.filterMap_cons]

/-- The paths a directory contributes. -/
def pathsOf (d : List Str × List (Str × Str)) : List (List Str) :=
  (sortByName d.2).map fun e => d.1 ++ [e.1]

lemma dataPaths_append (l1 l2 : List MonoLine) :
    dataPaths (l1 ++ l2) = dataPaths l1 ++ dataPaths l2 := by
  simp [dataPaths, List.filterMap_append]

lemma dataPaths_comments (hdr : List Str) :
    dataPaths (hdr.map MonoLine.comment) = [] := by
  induction hdr with
  | nil => rfl
  | cons h t ih => simpa [dataPaths, List.filterMap_cons] using ih

lemma dataPaths_dirEntryLines (d : List Str × List (Str × Str)) :
    dataPaths (dirEntryLines d) = pathsOf d := by
  rw [dataPaths, dirEntryLines, pathsOf]
  induction sortByName d.2 with
  | nil => rfl
  | cons e rest ih => simp only [List.filterMap_cons, List.map_cons, ih]

lemma dataPaths_monoRunAdt (hdr : List Str)
    (tree : List (List Str × List (Str × Str))) :
    dataPaths (monoRunAdt hdr tree) =
      (tree.map fun d => if d.2.isEmpty then [] else pathsOf d).flatten := by
  rw [monoRunAdt, dataPaths_append]
  have hfoot : dataPaths [footerAdt] = [] := rfl
  rw [hfoot, List.append_nil]
  suffices h : ∀ acc : List MonoLine,
      dataPaths (tree.foldl
        (fun acc d => if d.2.isEmpty then acc else appendDirectoryAdt acc d)
        acc) =
      dataPaths acc ++
        (tree.map fun d => if d.2.isEmpty then [] else pathsOf d).flatten by
    rw [h (hdr.map MonoLine.comment), dataPaths_comments, List.nil_append]
  induction tree with
  | nil => intro acc; simp
  | cons d rest ih =>
    intro acc
    rw [List.foldl_cons]
    by_cases hd : d.2.isEmpty
    · rw [if_pos hd, ih acc, List.map_cons, if_pos hd, List.flatten_cons,
        List.nil_append]
    · rw [if_neg hd, ih (appendDirectoryAdt acc d), appendDirectoryAdt,
        dataPaths_append, dataPaths_dirEntryLines, List.map_cons, if_neg hd,
        List.flatten_cons, List.append_assoc]

/-- C4 counterexample: the code's append writes an entry again even when
its exact relative path is already recorded in the resume state and
already present in the file — the recorded entry set does not suppress
duplicates on append; an append that did consult the set (as the claim
words it) would differ. -/
theorem resume_suppression_counterexample :
    appendDirectoryAdt [MonoLine.entry "ff".data ["d".data, "a.txt".data]]
        (["d".data], [("a.txt".data, "ff".data)]) =
      [MonoLine.entry "ff".data ["d".data, "a.txt".data],
       MonoLine.entry "ff".data ["d".data, "a.txt".data]] ∧
      claimedSuppressingAppend [["d".data, "a.txt".data]]
        [MonoLine.entry "ff".data ["d".data, "a.txt".data]]
        (["d".data], [("a.txt".data, "ff".data)]) =
      [MonoLine.entry "ff".data ["d".data, "a.txt".data]] := by
  decide

lemma mem_pathsOf_dropLast {d : List Str × List (Str × Str)} {p : List Str}
    (h : p ∈ pathsOf d) : p.dropLast = d.1 := by
  rw [pathsOf] at h
  obtain ⟨e, _, rfl⟩ := List.mem_map.1 h
  exact List.dropLast_concat

lemma pathsOf_nodup {d : List Str × List (Str × Str)}
    (h : (d.2.map fun e => e.1).Nodup) : (pathsOf d).Nodup := by
  rw [pathsOf]
  have hsplit : (sortByName d.2).map (fun e => d.1 ++ [e.1]) =
      ((sortByName d.2).map fun e => e.1).map fun n => d.1 ++ [n] := by
    rw [List.map_map]
    rfl
  rw [hsplit]
  refine List.Nodup.map ?_ ?_
  · intro a b hab
    simpa using List.append_cancel_left hab
  · exact (((sortByName_perm d.2).map fun e => e.1).nodup_iff).2 h

lemma foldl_resume_skip_all {rs1 : List (List Str)} :
    ∀ (tree : List (List Str × List (Str × Str))),
    (∀ d ∈ tree, d.2.isEmpty = true ∨ rs1.contains d.1 = true) →
    ∀ acc : List MonoLine,
    tree.foldl
      (fun acc d =>
        if rs1.contains d.1 then acc
        else if d.2.isEmpty then acc
        else appendDirectoryAdt acc d) acc = acc := by
  intro tree
  induction tree with
  | nil => intro _ acc; rfl
  | cons d rest ih =>
    intro h acc
    rw [List.foldl_cons]
    have hrest : ∀ f ∈ rest, f.2.isEmpty = true ∨ rs1.contains f.1 = true :=
      fun f hf => h f (List.mem_cons_of_mem d hf)
    rcases h d (by simp) with hd | hd
    · by_cases hc : rs1.contains d.1 = true
      · rw [if_pos hc]
        exact ih hrest acc
      · rw [if_neg hc, if_pos hd]
        exact ih hrest acc
    · rw [if_pos hd]
      exact ih hrest acc

/-- C4 (amended): the Resume Planner records, for every data line of the
existing tree-wide file, the entry's directory as complete and the exact
relative path as an existing entry; duplicate prevention on a resumed run
works by skipping the recorded-complete directories (the recorded entry
set itself is never consulted by the append, see the counterexample), so
running generation to completion and then running it again with resume
enabled leaves the tree-wide file unchanged, and every relative path
appears exactly once in it. -/
theorem resume_idempotence_amended (hdr : List Str)
    (tree : List (List Str × List (Str × Str)))
    (hdirs : (tree.map fun d => d.1).Nodup)
    (hnames : ∀ d ∈ tree, (d.2.map fun e => e.1).Nodup) :
    resumeStateAdt (monoRunAdt hdr tree) =
      ((dataPaths (monoRunAdt hdr tree)).map List.dropLast,
        dataPaths (monoRunAdt hdr tree)) ∧
    monoResumeRunAdt hdr tree = monoRunAdt hdr tree ∧
    (dataPaths (monoRunAdt hdr tree)).Nodup := by
  refine ⟨resumeStateAdt_spec _, ?_, ?_⟩
  · rw [monoResumeRunAdt]
    have hskip : ∀ d ∈ tree, d.2.isEmpty = true ∨
        ((resumeStateAdt (monoRunAdt hdr tree)).1).contains d.1 = true := by
      intro d hd
      by_cases he : d.2.isEmpty = true
      · exact Or.inl he
      · refine Or.inr ?_
        have hne2 : d.2 ≠ [] := fun hc => he (by simp [hc])
        obtain ⟨e, hemem⟩ : ∃ e, e ∈ d.2 := by
          cases h2 : d.2 with
          | nil => exact absurd h2 hne2
          | cons x xs => exact ⟨x, by simp⟩
        have hesort : e ∈ sortByName d.2 := ((sortByName_perm d.2).mem_iff).2 hemem
        have hp : (d.1 ++ [e.1]) ∈ pathsOf d := by
          rw [pathsOf]
          exact List.mem_map_of_mem _ hesort
        have hpd : (d.1 ++ [e.1]) ∈ dataPaths (monoRunAdt hdr tree) := by
          rw [dataPaths_monoRunAdt]
          refine List.mem_flatten.2 ⟨pathsOf d, ?_, hp⟩
          have hblock : pathsOf d =
              (fun d : List Str × List (Str × Str) =>
                if d.2.isEmpty then [] else pathsOf d) d := by
            simp [he]
          rw [hblock]
          exact List.mem_map_of_mem _ hd
        rw [resumeStateAdt_spec]
        refine contains_iff_mem.2 ?_
        have := List.mem_map_of_mem List.dropLast hpd
        rwa [List.dropLast_concat] at this
    rw [foldl_resume_skip_all tree hskip]
    rw [monoRunAdt, stripFooterAdt, if_pos (List.getLast?_concat _),
      List.dropLast_concat]
  · rw [dataPaths_monoRunAdt, List.nodup_flatten]
    constructor
    · intro b hb
      obtain ⟨d, hd, rfl⟩ := List.mem_map.1 hb
      by_cases he : d.2.isEmpty
      · rw [if_pos he]
        exact List.nodup_nil
      · rw [if_neg he]
        exact pathsOf_nodup (hnames d hd)
    · rw [List.pairwise_map]
      have hpair : tree.Pairwise fun a b => a.1 ≠ b.1 :=
        List.pairwise_map.1 hdirs
      refine List.Pairwise.imp ?_ hpair
      intro a b hab p hpa hpb
      by_cases hea : a.2.isEmpty
      · rw [if_pos hea] at hpa
        cases hpa
      · by_cases heb : b.2.isEmpty
        · rw [if_pos heb] at hpb
          cases hpb
        · rw [if_neg hea] at hpa
          rw [if_neg heb] at hpb
          exact hab ((mem_pathsOf_dropLast hpa) ▸ mem_pathsOf_dropLast hpb)

/-- Concrete header lines for the resume witness. -/
def hdrW : List Str := ["# monolithic header".data, "# Root directory: /r".data]

/-- Concrete tree for the resume witness: one directory with two files, one
empty directory. -/
def treeW : List (List Str × List (Str × Str)) :=
  [(["d1".data], [("a.txt".data, "ff".data), ("b.txt".data, "aa".data)]),
   (["d2".data], [])]

/-- Witness for the amended resume-idempotence theorem at a concrete
tree. -/
theorem resume_idempotence_amended_witness :
    ((treeW.map fun d => d.1).Nodup ∧
      ∀ d ∈ treeW, (d.2.map fun e => e.1).Nodup) ∧
    (resumeStateAdt (monoRunAdt hdrW treeW) =
        ((dataPaths (monoRunAdt hdrW treeW)).map List.dropLast,
          dataPaths (monoRunAdt hdrW treeW)) ∧
      monoResumeRunAdt hdrW treeW = monoRunAdt hdrW treeW ∧
      (dataPaths (monoRunAdt hdrW treeW)).Nodup) :=
  ⟨⟨by decide, by decide⟩,
    resume_idempotence_amended hdrW treeW (by decide) (by decide)⟩

/-! ## Loop-safe FIFO walker

`FIFODirectoryWalker.walk_and_process` (dazzlesum.py:1633-1681) with
`SymlinkHandler.mark_visited` / `is_visited` (dazzlesum.py:1584-1621).  A
path is abstract; the environment gives its resolved-path key and its
(device, inode) key — both recorded on marking, either sufficing for the
visited check — its child directories (`iterdir` restricted to
directories), and the `should_follow_link` verdict.  Symlink cycles and
aliases are modelled by distinct paths sharing keys.  The `stat`/`resolve`
exception fallbacks are outside the model (keys are total). -/

/-- The walker's file-system environment over a path type `P`. -/
structure WalkEnv (P : Type) where
  rpath : P → Nat
  ino : P → Nat
  children : P → List P
  follow : P → Bool

/-- Walker state: FIFO queue, the two visited sets, the directories
processed (callback invoked) in order. -/
structure WalkState (P : Type) where
  queue : List P
  visitedPaths : List Nat
  visitedInodes : List Nat
  processed : List P

/-- `SymlinkHandler.is_visited`: known by resolved path or by inode. -/
def isVisited {P : Type} (env : WalkEnv P) (st : WalkState P) (p : P) : Bool :=
  st.visitedPaths.contains (env.rpath p) ||
    st.visitedInodes.contains (env.ino p)

/-- `SymlinkHandler.mark_visited`: record both keys. -/
def markVisited {P : Type} (env : WalkEnv P) (st : WalkState P) (p : P) :
    WalkState P :=
  { st with visitedPaths := st.visitedPaths ++ [env.rpath p],
            visitedInodes := st.visitedInodes ++ [env.ino p] }

/-- One iteration of the walk loop: dequeue; drop if already visited; mark
visited; drop without processing if the link is not followed; otherwise
invoke the callback (record as processed) and enqueue the not-yet-visited
subdirectories. -/
def walkStep {P : Type} (env : WalkEnv P) (st : WalkState P) : WalkState P :=
  match st.queue with
  | [] => st
  | p :: qs =>
    if isVisited env st p then { st with queue := qs }
    else
      let st1 := markVisited env { st with queue := qs } p
      if env.follow p then
        let st2 := { st1 with processed := st1.processed ++ [p] }
        { st2 with queue := st2.queue ++
            (env.children p).filter fun q => ¬ isVisited env st2 q }
      else st1

/-- The walk loop with explicit fuel; the loop-freedom theorem shows some
finite fuel empties the queue. -/
def walkFuel {P : Type} (env : WalkEnv P) : Nat → WalkState P → WalkState P
  | 0, st => st
  | n + 1, st =>
    match st.queue with
    | [] => st
    | _ :: _ => walkFuel env n (walkStep env st)

/-- Termination measure: queue length plus a budget of `B + 1` for every
universe inode not yet visited. -/
def walkMeasure {P : Type} (U : Finset Nat) (B : Nat) (st : WalkState P) :
    Nat :=
  st.queue.length +
    (B + 1) * (U.filter fun i => st.visitedInodes.contains i = false).card

/-- Queue closure invariant: every enqueued path's inode lies in the
finite universe `U`. -/
def QueueClosed {P : Type} (env : WalkEnv P) (U : Finset Nat)
    (st : WalkState P) : Prop :=
  ∀ p ∈ st.queue, env.ino p ∈ U

/-- Processed-set invariant: processed keys are distinct and recorded in
the visited sets. -/
def ProcessedInv {P : Type} (env : WalkEnv P) (st : WalkState P) : Prop :=
  (st.processed.map env.ino).Nodup ∧
  (st.processed.map env.rpath).Nodup ∧
  (∀ p ∈ st.processed, env.ino p ∈ st.visitedInodes) ∧
  (∀ p ∈ st.processed, env.rpath p ∈ st.visitedPaths)

lemma contains_eq_false_iff {α : Type} [BEq α] [LawfulBEq α] {n : α}
    {l : List α} : l.contains n = false ↔ n ∉ l := by
  rw [← contains_iff_mem]
  cases h : l.contains n <;> simp

lemma isVisited_eq_false_iff {P : Type} (env : WalkEnv P) (st : WalkState P)
    (p : P) : isVisited env st p = false ↔
      env.rpath p ∉ st.visitedPaths ∧ env.ino p ∉ st.visitedInodes := by
  rw [isVisited, Bool.or_eq_false_iff, contains_eq_false_iff,
    contains_eq_false_iff]

lemma filter_card_succ (U : Finset Nat) (vi : List Nat) (k : Nat)
    (hkU : k ∈ U) (hk : k ∉ vi) :
    (U.filter fun i => (vi ++ [k]).contains i = false).card + 1 =
      (U.filter fun i => vi.contains i = false).card := by
  have hset : (U.filter fun i => (vi ++ [k]).contains i = false) =
      (U.filter fun i => vi.contains i = false).erase k := by
    ext i
    simp only [Finset.mem_filter, Finset.mem_erase, contains_eq_false_iff,
      List.mem_append, List.mem_singleton]
    constructor
    · rintro ⟨hiU, hi⟩
      push_neg at hi
      exact ⟨hi.2, hiU, hi.1⟩
    · rintro ⟨hne, hiU, hi⟩
      exact ⟨hiU, by push_neg; exact ⟨hi, hne⟩⟩
  have hmem : k ∈ U.filter fun i => vi.contains i = false :=
    Finset.mem_filter.2 ⟨hkU, contains_eq_false_iff.2 hk⟩
  rw [hset, Finset.card_erase_of_mem hmem]
  have hpos : 0 < (U.filter fun i => vi.contains i = false).card :=
    Finset.card_pos.2 ⟨k, hmem⟩
  omega

lemma walkStep_closed {P : Type} (env : WalkEnv P) (U : Finset Nat)
    (hclosed : ∀ p : P, env.ino p ∈ U → ∀ q ∈ env.children p, env.ino q ∈ U)
    (st : WalkState P) (hq : QueueClosed env U st) :
    QueueClosed env U (walkStep env st) := by
  cases hqueue : st.queue with
  | nil => simpa only [walkStep, hqueue] using hq
  | cons p qs =>
    have hqs : ∀ x ∈ qs, env.ino x ∈ U :=
      fun x hx => hq x (by rw [hqueue]; exact List.mem_cons_of_mem p hx)
    have hp : env.ino p ∈ U := hq p (by rw [hqueue]; simp)
    simp only [walkStep, hqueue]
    by_cases hv : isVisited env st p = true
    · rw [if_pos hv]
      intro x hx
      exact hqs x hx
    · rw [if_neg hv]
      by_cases hf : env.follow p = true
      · rw [if_pos hf]
        intro x hx
        rcases List.mem_append.1 hx with hx' | hx'
        · exact hqs x hx'
        · exact hclosed p hp x (List.mem_of_mem_filter hx')
      · rw [if_neg hf]
        intro x hx
        exact hqs x hx

lemma walkStep_measure {P : Type} (env : WalkEnv P) (U : Finset Nat)
    (B : Nat) (hB : ∀ p : P, (env.children p).length ≤ B) (st : WalkState P)
    (hq : QueueClosed env U st) (hne : st.queue ≠ []) :
    walkMeasure U B (walkStep env st) < walkMeasure U B st := by
  cases hqueue : st.queue with
  | nil => exact absurd hqueue hne
  | cons p qs =>
    have hp : env.ino p ∈ U := hq p (by rw [hqueue]; simp)
    simp only [walkStep, hqueue]
    by_cases hv : isVisited env st p = true
    · rw [if_pos hv]
      rw [walkMeasure, walkMeasure, hqueue]
      simp
    · rw [if_neg hv]
      have hnovi : env.ino p ∉ st.visitedInodes :=
        ((isVisited_eq_false_iff env st p).1 (by simpa using hv)).2
      have hcard := filter_card_succ U st.visitedInodes (env.ino p) hp hnovi
      by_cases hf : env.follow p = true
      · rw [if_pos hf]
        rw [walkMeasure, walkMeasure, hqueue]
        simp only [markVisited, List.length_append, List.length_cons]
        have hchild : ∀ st2 : WalkState P, ((env.children p).filter fun q =>
            ¬ isVisited env st2 q).length ≤ B :=
          fun st2 => le_trans (List.length_filter_le _ _) (hB p)
        have hchild2 := hchild { markVisited env { st with queue := qs } p with
            processed := (markVisited env { st with queue := qs } p).processed ++ [p] }
        simp only [markVisited] at hchild2
        have hmul : (B + 1) *
            (U.filter fun i => st.visitedInodes.contains i = false).card =
            (B + 1) * (U.filter fun i =>
              (st.visitedInodes ++ [env.ino p]).contains i = false).card +
            (B + 1) := by
          rw [← hcard, Nat.mul_add, Nat.mul_one]
        omega
      · rw [if_neg hf]
        rw [walkMeasure, walkMeasure, hqueue]
        simp only [markVisited, List.length_cons]
        have hmul : (B + 1) *
            (U.filter fun i => st.visitedInodes.contains i = false).card =
            (B + 1) * (U.filter fun i =>
              (st.visitedInodes ++ [env.ino p]).contains i = false).card +
            (B + 1) := by
          rw [← hcard, Nat.mul_add, Nat.mul_one]
        omega

lemma walkStep_processed {P : Type} (env : WalkEnv P) (st : WalkState P)
    (hp : ProcessedInv env st) : ProcessedInv env (walkStep env st) := by
  obtain ⟨h1, h2, h3, h4⟩ := hp
  cases hqueue : st.queue with
  | nil => exact (by simpa only [walkStep, hqueue] using
      (⟨h1, h2, h3, h4⟩ : ProcessedInv env st))
  | cons p qs =>
    simp only [walkStep, hqueue]
    by_cases hv : isVisited env st p = true
    · rw [if_pos hv]
      exact ⟨h1, h2, h3, h4⟩
    · rw [if_neg hv]
      obtain ⟨hnopath, hnoino⟩ := (isVisited_eq_false_iff env st p).1
        (by simpa using hv)
      by_cases hf : env.follow p = true
      · rw [if_pos hf]
        simp only [markVisited]
        refine ⟨?_, ?_, ?_, ?_⟩
        · rw [List.map_append]
          simp only [List.map_cons, List.map_nil]
          rw [List.nodup_append]
          refine ⟨h1, by simp, ?_⟩
          intro a ha hb
          simp only [List.mem_singleton] at hb
          obtain ⟨x, hx, hax⟩ := List.mem_map.1 ha
          refine hnoino ?_
          rw [← hb, ← hax]
          exact h3 x hx
        · rw [List.map_append]
          simp only [List.map_cons, List.map_nil]
          rw [List.nodup_append]
          refine ⟨h2, by simp, ?_⟩
          intro a ha hb
          simp only [List.mem_singleton] at hb
          obtain ⟨x, hx, hax⟩ := List.mem_map.1 ha
          refine hnopath ?_
          rw [← hb, ← hax]
          exact h4 x hx
        · intro x hx
          rcases List.mem_append.1 hx with hx' | hx'
          · exact List.mem_append_left _ (h3 x hx')
          · simp only [List.mem_singleton] at hx'
            subst hx'
            exact List.mem_append_right _ (by simp [markVisited])
        · intro x hx
          rcases List.mem_append.1 hx with hx' | hx'
          · exact List.mem_append_left _ (h4 x hx')
          · simp only [List.mem_singleton] at hx'
            subst hx'
            exact List.mem_append_right _ (by simp [markVisited])
      · rw [if_neg hf]
        simp only [markVisited]
        refine ⟨h1, h2, ?_, ?_⟩
        · intro x hx
          exact List.mem_append_left _ (h3 x hx)
        · intro x hx
          exact List.mem_append_left _ (h4 x hx)

lemma walkFuel_empties {P : Type} (env : WalkEnv P) (U : Finset Nat) (B : Nat)
    (hclosed : ∀ p : P, env.ino p ∈ U → ∀ q ∈ env.children p, env.ino q ∈ U)
    (hB : ∀ p : P, (env.children p).length ≤ B) :
    ∀ n : Nat, ∀ st : WalkState P, QueueClosed env U st →
    walkMeasure U B st ≤ n → (walkFuel env n st).queue = [] := by
  intro n
  induction n with
  | zero =>
    intro st _ hm
    rw [walkFuel]
    rw [walkMeasure] at hm
    cases hq : st.queue with
    | nil => rfl
    | cons p qs => rw [hq] at hm; simp at hm
  | succ n ih =>
    intro st hqc hm
    cases hq : st.queue with
    | nil => simp only [walkFuel, hq]
    | cons p qs =>
      simp only [walkFuel, hq]
      have hne : st.queue ≠ [] := by rw [hq]; simp
      have hdec := walkStep_measure env U B hB st hqc hne
      exact ih (walkStep env st) (walkStep_closed env U hclosed st hqc)
        (by omega)

lemma walkFuel_processed {P : Type} (env : WalkEnv P) :
    ∀ (n : Nat) (st : WalkState P), ProcessedInv env st →
    ProcessedInv env (walkFuel env n st) := by
  intro n
  induction n with
  | zero => intro st h; exact h
  | succ n ih =>
    intro st h
    cases hq : st.queue with
    | nil => simp only [walkFuel, hq]; exact h
    | cons p qs =>
      simp only [walkFuel, hq]
      exact ih (walkStep env st) (walkStep_processed env st h)

/-- C3: loop-freedom.  On any finite universe of real directories — also
in the presence of symlink aliases and cycles, i.e. distinct paths sharing
a resolved-path or inode key — the walk terminates (some finite fuel
empties the FIFO queue), and the per-directory callback runs at most once
per inode key and at most once per resolved-path key: a visited directory
is never re-processed even when reached by a different alias. -/
theorem walker_loop_free {P : Type} (env : WalkEnv P) (root : P)
    (U : Finset Nat) (B : Nat) (hroot : env.ino root ∈ U)
    (hclosed : ∀ p : P, env.ino p ∈ U → ∀ q ∈ env.children p, env.ino q ∈ U)
    (hB : ∀ p : P, (env.children p).length ≤ B) :
    (∃ n : Nat, (walkFuel env n ⟨[root], [], [], []⟩).queue = []) ∧
    (∀ n : Nat,
      ((walkFuel env n ⟨[root], [], [], []⟩).processed.map env.ino).Nodup ∧
      ((walkFuel env n ⟨[root], [], [], []⟩).processed.map env.rpath).Nodup) := by
  constructor
  · refine ⟨walkMeasure U B ⟨[root], [], [], []⟩, ?_⟩
    refine walkFuel_empties env U B hclosed hB _ _ ?_ le_rfl
    intro p hp
    simp only [List.mem_singleton] at hp
    subst hp
    exact hroot
  · intro n
    have := walkFuel_processed env n ⟨[root], [], [], []⟩
      ⟨by simp, by simp, by simp, by simp⟩
    exact ⟨this.1, this.2.1⟩

/-- Walker witness: a three-path world with a symlink cycle — path 0 is
the root (inode 0), its child path 1 is a real subdirectory (inode 1), and
path 1's child path 2 is a symlink alias of the root (same resolved path
and inode as path 0).  The walk terminates and processes each real
directory at most once. -/
def cycleEnv : WalkEnv (Fin 3) where
  rpath := fun p => if p = 2 then 0 else p.val
  ino := fun p => if p = 2 then 0 else p.val
  children := fun p => if p = 0 then [1] else if p = 1 then [2] else []
  follow := fun _ => true

theorem walker_loop_free_witness :
    (cycleEnv.ino 0 ∈ ({0, 1} : Finset Nat) ∧
      (∀ p : Fin 3, cycleEnv.ino p ∈ ({0, 1} : Finset Nat) →
        ∀ q ∈ cycleEnv.children p, cycleEnv.ino q ∈ ({0, 1} : Finset Nat)) ∧
      (∀ p : Fin 3, (cycleEnv.children p).length ≤ 1)) ∧
    ((∃ n : Nat, (walkFuel cycleEnv n ⟨[0], [], [], []⟩).queue = []) ∧
      (∀ n : Nat,
        ((walkFuel cycleEnv n ⟨[0], [], [], []⟩).processed.map
          cycleEnv.ino).Nodup ∧
        ((walkFuel cycleEnv n ⟨[0], [], [], []⟩).processed.map
          cycleEnv.rpath).Nodup)) :=
  ⟨⟨by decide, by decide, by decide⟩,
    walker_loop_free cycleEnv 0 {0, 1} 1 (by decide) (by decide) (by decide)⟩

/-! ## Line-ending normalization (`LineEndingHandler`)

Bytes are naturals below 256; Python `str` text is a list of Unicode code
points.  `bytes.decode('utf-8')` is modelled by a strict UTF-8 decoder,
`bytes.decode('latin-1')` by the (total) identity on byte values, and
`str.encode('utf-8')` by the standard encoder. -/

/-- The line-ending strategies of `LineEndingHandler`. -/
inductive Strategy where
  | auto
  | unix
  | windows
  | preserve
deriving DecidableEq, Repr

/-- A valid Unicode scalar value: what a strict decoder may produce and
what Python `str` may hold. -/
def ValidCP (c : Nat) : Prop := c < 0x110000 ∧ ¬ (0xD800 ≤ c ∧ c < 0xE000)

/-- UTF-8 encoding of one scalar value. -/
def utf8EncodeChar (c : Nat) : List Nat :=
  if c < 0x80 then [c]
  else if c < 0x800 then [0xC0 + c / 64, 0x80 + c % 64]
  else if c < 0x10000 then
    [0xE0 + c / 4096, 0x80 + c / 64 % 64, 0x80 + c % 64]
  else
    [0xF0 + c / 262144, 0x80 + c / 4096 % 64, 0x80 + c / 64 % 64,
      0x80 + c % 64]

/-- `str.encode('utf-8')`. -/
def utf8Encode (t : List Nat) : List Nat := (t.map utf8EncodeChar).flatten

/-- A UTF-8 continuation byte. -/
def contByte (b : Nat) : Bool := decide (0x80 ≤ b ∧ b < 0xC0)

/-- Code point of a two-byte sequence. -/
def cp2 (b b1 : Nat) : Nat := (b - 0xC0) * 64 + (b1 - 0x80)

/-- Code point of a three-byte sequence. -/
def cp3 (b b1 b2 : Nat) : Nat :=
  (b - 0xE0) * 4096 + (b1 - 0x80) * 64 + (b2 - 0x80)

/-- Code point of a four-byte sequence. -/
def cp4 (b b1 b2 b3 : Nat) : Nat :=
  (b - 0xF0) * 262144 + (b1 - 0x80) * 4096 + (b2 - 0x80) * 64 + (b3 - 0x80)

/-- Validity of a three-byte sequence: continuation bytes, not overlong,
not a surrogate. -/
def ok3 (b b1 b2 : Nat) : Bool :=
  contByte b1 && contByte b2 &&
    decide (0x800 ≤ cp3 b b1 b2 ∧
      ¬ (0xD800 ≤ cp3 b b1 b2 ∧ cp3 b b1 b2 < 0xE000))

/-- Validity of a four-byte sequence: continuation bytes, not overlong,
within the Unicode range. -/
def ok4 (b b1 b2 b3 : Nat) : Bool :=
  contByte b1 && contByte b2 && contByte b3 &&
    decide (0x10000 ≤ cp4 b b1 b2 b3 ∧ cp4 b b1 b2 b3 < 0x110000)

/-- Continuation of a two-byte sequence. -/
def seq2 (b : Nat) : List Nat → Option (Nat × List Nat)
  | b1 :: rest2 => if contByte b1 then some (cp2 b b1, rest2) else none
  | [] => none

/-- Continuation of a three-byte sequence. -/
def seq3 (b : Nat) : List Nat → Option (Nat × List Nat)
  | b1 :: b2 :: rest2 =>
    if ok3 b b1 b2 then some (cp3 b b1 b2, rest2) else none
  | _ => none

/-- Continuation of a four-byte sequence. -/
def seq4 (b : Nat) : List Nat → Option (Nat × List Nat)
  | b1 :: b2 :: b3 :: rest2 =>
    if ok4 b b1 b2 b3 then some (cp4 b b1 b2 b3, rest2) else none
  | _ => none

/-- One step of strict UTF-8 decoding: the leading code point and the
remaining bytes, or `none` at end of input or on an invalid sequence
(stray continuation or overlong lead byte `< 0xC2`, truncated sequence,
bad continuation byte, overlong encoding, surrogate, beyond U+10FFFF). -/
def utf8Step : List Nat → Option (Nat × List Nat)
  | [] => none
  | b :: rest =>
    if b < 0x80 then some (b, rest)
    else if b < 0xC2 then none
    else if b < 0xE0 then seq2 b rest
    else if b < 0xF0 then seq3 b rest
    else if b < 0xF5 then seq4 b rest
    else none

lemma seq2_shrinks {b : Nat} : ∀ {r : List Nat} {c : Nat} {rest : List Nat},
    seq2 b r = some (c, rest) → rest.length < r.length + 1 := by
  intro r c rest h
  match r with
  | [] => simp [seq2] at h
  | b1 :: rest2 =>
    rw [seq2] at h
    split_ifs at h
    injection h with h'
    injection h' with hc hr
    rw [← hr]
    simp
    omega

lemma seq3_shrinks {b : Nat} : ∀ {r : List Nat} {c : Nat} {rest : List Nat},
    seq3 b r = some (c, rest) → rest.length < r.length + 1 := by
  intro r c rest h
  match r with
  | [] => simp [seq3] at h
  | [b1] => simp [seq3] at h
  | b1 :: b2 :: rest2 =>
    rw [seq3] at h
    split_ifs at h
    injection h with h'
    injection h' with hc hr
    rw [← hr]
    simp
    omega

lemma seq4_shrinks {b : Nat} : ∀ {r : List Nat} {c : Nat} {rest : List Nat},
    seq4 b r = some (c, rest) → rest.length < r.length + 1 := by
  intro r c rest h
  match r with
  | [] => simp [seq4] at h
  | [b1] => simp [seq4] at h
  | [b1, b2] => simp [seq4] at h
  | b1 :: b2 :: b3 :: rest2 =>
    rw [seq4] at h
    split_ifs at h
    injection h with h'
    injection h' with hc hr
    rw [← hr]
    simp
    omega

lemma utf8Step_shrinks : ∀ {bs : List Nat} {c : Nat} {rest : List Nat},
    utf8Step bs = some (c, rest) → rest.length < bs.length := by
  intro bs c rest h
  match bs with
  | [] => simp [utf8Step] at h
  | b :: r =>
    rw [utf8Step] at h
    split_ifs at h
    · injection h with h'
      injection h' with hc hr
      rw [← hr]
      simp
    · simpa using seq2_shrinks h
    · simpa using seq3_shrinks h
    · simpa using seq4_shrinks h

/-- Strict UTF-8 decoding, as Python's `bytes.decode('utf-8')`: decode
leading code points until the input is exhausted (success) or a step
fails. -/
def utf8Decode (bs : List Nat) : Option (List Nat) :=
  match hs : utf8Step bs with
  | some (c, rest) =>
    have := utf8Step_shrinks hs
    (utf8Decode rest).map fun t => c :: t
  | none => if bs.isEmpty then some [] else none
termination_by bs.length

lemma utf8Decode_of_step_some {bs : List Nat} {c : Nat} {rest : List Nat}
    (hs : utf8Step bs = some (c, rest)) :
    utf8Decode bs = (utf8Decode rest).map fun t => c :: t := by
  rw [utf8Decode]
  split
  · next c' rest' hs' =>
    rw [hs] at hs'
    injection hs' with h'
    injection h' with hc hr
    subst hc
    subst hr
    rfl
  · next hs' =>
    rw [hs] at hs'
    cases hs'

lemma utf8Decode_of_step_none {bs : List Nat} (hs : utf8Step bs = none) :
    utf8Decode bs = if bs.isEmpty then some [] else none := by
  rw [utf8Decode]
  split
  · next c' rest' hs' =>
    rw [hs] at hs'
    cases hs'
  · next => rfl

lemma contByte_bounds {b : Nat} (h : contByte b = true) :
    0x80 ≤ b ∧ b < 0xC0 := of_decide_eq_true h

lemma utf8Step_valid : ∀ {bs : List Nat} {c : Nat} {rest : List Nat},
    utf8Step bs = some (c, rest) → ValidCP c := by
  intro bs c rest h
  match bs with
  | [] => simp [utf8Step] at h
  | b :: r =>
    rw [utf8Step] at h
    split_ifs at h with h1 h2 h3 h4 h5
    · injection h with h'
      injection h' with he hr
      rw [← he]
      exact ⟨by omega, by omega⟩
    · match r with
      | [] => simp [seq2] at h
      | b1 :: rest2 =>
        rw [seq2] at h
        split_ifs at h with hc
        injection h with h'
        injection h' with he hr
        rw [← he]
        have := contByte_bounds hc
        rw [cp2]
        exact ⟨by omega, by omega⟩
    · match r with
      | [] => simp [seq3] at h
      | [b1] => simp [seq3] at h
      | b1 :: b2 :: rest2 =>
        rw [seq3] at h
        split_ifs at h with hc
        injection h with h'
        injection h' with he hr
        rw [← he]
        rw [ok3] at hc
        simp only [Bool.and_eq_true] at hc
        have hrange := of_decide_eq_true hc.2
        have hbb1 := contByte_bounds hc.1.1
        have hbb2 := contByte_bounds hc.1.2
        refine ⟨?_, hrange.2⟩
        rw [cp3] at hrange ⊢
        omega
    · match r with
      | [] => simp [seq4] at h
      | [b1] => simp [seq4] at h
      | [b1, b2] => simp [seq4] at h
      | b1 :: b2 :: b3 :: rest2 =>
        rw [seq4] at h
        split_ifs at h with hc
        injection h with h'
        injection h' with he hr
        rw [← he]
        rw [ok4] at hc
        simp only [Bool.and_eq_true] at hc
        have hrange := of_decide_eq_true hc.2
        exact ⟨hrange.2, by rw [cp4] at hrange ⊢; omega⟩

lemma utf8Decode_valid : ∀ {bs : List Nat}, ∀ {t : List Nat},
    utf8Decode bs = some t → ∀ c ∈ t, ValidCP c := by
  intro bs
  induction bs using utf8Decode.induct with
  | case1 bs c rest hs hlen ih =>
    intro t h x hx
    rw [utf8Decode_of_step_some hs, Option.map_eq_some'] at h
    obtain ⟨t', ht', rfl⟩ := h
    rcases List.mem_cons.1 hx with rfl | hx'
    · exact utf8Step_valid hs
    · exact ih ht' x hx'
  | case2 bs hs hb =>
    intro t h x hx
    rw [utf8Decode_of_step_none hs, if_pos hb, Option.some.injEq] at h
    rw [← h] at hx
    cases hx
  | case3 bs hs hb =>
    intro t h x hx
    rw [utf8Decode_of_step_none hs, if_neg hb] at h
    cases h

lemma utf8Step_encodeChar {c : Nat} (h : ValidCP c) (bs : List Nat) :
    utf8Step (utf8EncodeChar c ++ bs) = some (c, bs) := by
  obtain ⟨hlt, hsur⟩ := h
  rw [utf8EncodeChar]
  by_cases h1 : c < 0x80
  · rw [if_pos h1]
    simp only [List.cons_append, List.nil_append]
    rw [utf8Step, if_pos h1]
  · rw [if_neg h1]
    by_cases h2 : c < 0x800
    · rw [if_pos h2]
      simp only [List.cons_append, List.nil_append]
      rw [utf8Step, if_neg (by omega), if_neg (by omega), if_pos (by omega),
        seq2, if_pos (by rw [contByte]; exact decide_eq_true (by omega))]
      have harith : cp2 (0xC0 + c / 64) (0x80 + c % 64) = c := by
        rw [cp2]
        omega
      rw [harith]
    · rw [if_neg h2]
      by_cases h3 : c < 0x10000
      · rw [if_pos h3]
        simp only [List.cons_append, List.nil_append]
        rw [utf8Step, if_neg (by omega), if_neg (by omega), if_neg (by omega),
          if_pos (by omega), seq3]
        have harith : cp3 (0xE0 + c / 4096) (0x80 + c / 64 % 64)
            (0x80 + c % 64) = c := by
          rw [cp3]
          omega
        have hcond : ok3 (0xE0 + c / 4096) (0x80 + c / 64 % 64)
            (0x80 + c % 64) = true := by
          rw [ok3, harith]
          simp only [Bool.and_eq_true]
          refine ⟨⟨?_, ?_⟩, ?_⟩
          · rw [contByte]; exact decide_eq_true (by omega)
          · rw [contByte]; exact decide_eq_true (by omega)
          · exact decide_eq_true ⟨by omega, hsur⟩
        rw [if_pos hcond, harith]
      · rw [if_neg h3]
        simp only [List.cons_append, List.nil_append]
        rw [utf8Step, if_neg (by omega), if_neg (by omega), if_neg (by omega),
          if_neg (by omega), if_pos (by omega), seq4]
        have harith : cp4 (0xF0 + c / 262144) (0x80 + c / 4096 % 64)
            (0x80 + c / 64 % 64) (0x80 + c % 64) = c := by
          rw [cp4]
          omega
        have hcond : ok4 (0xF0 + c / 262144) (0x80 + c / 4096 % 64)
            (0x80 + c / 64 % 64) (0x80 + c % 64) = true := by
          rw [ok4, harith]
          simp only [Bool.and_eq_true]
          refine ⟨⟨⟨?_, ?_⟩, ?_⟩, ?_⟩
          · rw [contByte]; exact decide_eq_true (by omega)
          · rw [contByte]; exact decide_eq_true (by omega)
          · rw [contByte]; exact decide_eq_true (by omega)
          · exact decide_eq_true ⟨by omega, by omega⟩
        rw [if_pos hcond, harith]

lemma utf8Decode_encode {t : List Nat} (h : ∀ c ∈ t, ValidCP c) :
    utf8Decode (utf8Encode t) = some t := by
  induction t with
  | nil =>
    rw [show utf8Encode [] = [] from rfl,
      utf8Decode_of_step_none (show utf8Step [] = none from rfl)]
    rfl
  | cons c rest ih =>
    rw [utf8Encode, List.map_cons, List.flatten_cons]
    rw [utf8Decode_of_step_some (utf8Step_encodeChar (h c (by simp)) _)]
    rw [show (rest.map utf8EncodeChar).flatten = utf8Encode rest from rfl]
    rw [ih fun x hx => h x (by simp [hx])]
    rfl

/-- `bytes.decode('latin-1')`: total, each byte its own code point. -/
def latin1Decode (bs : List Nat) : Option (List Nat) := some bs

/-- `text.replace('\r\n', '\n')`: leftmost, non-overlapping. -/
def replaceCRLF : List Nat → List Nat
  | [] => []
  | [c] => [c]
  | c :: d :: rest =>
    if c = 13 ∧ d = 10 then 10 :: replaceCRLF rest
    else c :: replaceCRLF (d :: rest)

/-- `text.replace('\r', '\n')`. -/
def replaceCR (t : List Nat) : List Nat :=
  t.map fun c => if c = 13 then 10 else c

/-- `text.replace('\n', '\r\n')`. -/
def lfToCrlf : List Nat → List Nat
  | [] => []
  | c :: rest =>
    if c = 10 then 13 :: 10 :: lfToCrlf rest else c :: lfToCrlf rest

/-- The unix (and auto) rewriting
`text.replace('\r\n', '\n').replace('\r', '\n')`. -/
def unixText (t : List Nat) : List Nat := replaceCR (replaceCRLF t)

/-- The windows rewriting: unix first, then every `\n` becomes `\r\n`. -/
def windowsText (t : List Nat) : List Nat := lfToCrlf (unixText t)

/-- The decode used by `normalize_content`: UTF-8, falling back to
Latin-1 on failure; Latin-1 never fails, so the final `return content`
branch of the source is unreachable. -/
def decodeWithFallback (content : List Nat) : List Nat :=
  match utf8Decode content with
  | some t => t
  | none => content

/-- `LineEndingHandler.normalize_content` (dazzlesum.py:1479-1499):
`preserve` returns the bytes unchanged; otherwise decode with fallback,
rewrite terminators per strategy, re-encode as UTF-8. -/
def normalize_content (strategy : Strategy) (content : List Nat) :
    List Nat :=
  if strategy = Strategy.preserve then content
  else
    match strategy with
    | .unix | .auto => utf8Encode (unixText (decodeWithFallback content))
    | .windows => utf8Encode (windowsText (decodeWithFallback content))
    | .preserve => content

/-- The `text_extensions` allow-list (dazzlesum.py:1439-1444). -/
def text_extensions : List Str :=
  [".txt".data, ".py".data, ".js".data, ".html".data, ".css".data,
   ".xml".data, ".json".data, ".yaml".data, ".yml".data, ".md".data,
   ".rst".data, ".cfg".data, ".ini".data, ".conf".data, ".log".data,
   ".sql".data, ".sh".data, ".bat".data, ".cmd".data, ".ps1".data,
   ".php".data, ".rb".data, ".pl".data, ".java".data, ".c".data,
   ".cpp".data, ".h".data, ".hpp".data, ".cs".data, ".vb".data,
   ".go".data, ".rs".data, ".swift".data, ".kt".data, ".scala".data]

/-- `LineEndingHandler.should_normalize` (dazzlesum.py:1446-1477): never
under `preserve`; by extension allow-list; else sniff the first 1KB —
a failed open (`none`), an empty sample, or a null byte refuse; otherwise
UTF-8 then Latin-1 decodability accept. -/
def should_normalize (strategy : Strategy) (extLower : Str)
    (sampleBytes : Option (List Nat)) : Bool :=
  if strategy = Strategy.preserve then false
  else if text_extensions.contains extLower then true
  else
    match sampleBytes with
    | none => false
    | some bs =>
      let sample := bs.take 1024
      if sample.isEmpty then false
      else if sample.contains 0 then false
      else if (utf8Decode sample).isSome then true
      else if (latin1Decode sample).isSome then true
      else false

/-- Exactly-`\r\n` shape: every carriage return is followed by a line
feed and every line feed preceded by a carriage return. -/
def crlfOnly : List Nat → Bool
  | [] => true
  | c :: rest =>
    if c = 13 then
      match rest with
      | d :: rest2 => if d = 10 then crlfOnly rest2 else false
      | [] => false
    else if c = 10 then false
    else crlfOnly rest

lemma utf8Decode_nil : utf8Decode [] = some [] := by
  rw [utf8Decode_of_step_none (show utf8Step [] = none from rfl)]
  rfl

lemma replaceCRLF_cons_ne {c : Nat} (hc : c ≠ 13) (l : List Nat) :
    replaceCRLF (c :: l) = c :: replaceCRLF l := by
  cases l with
  | nil => rfl
  | cons d rest =>
    rw [replaceCRLF, if_neg (fun h => hc h.1)]

lemma mem_replaceCRLF' : ∀ {t : List Nat} {c : Nat},
    c ∈ replaceCRLF t → c ∈ t ∨ c = 10 := by
  intro t
  induction t using replaceCRLF.induct with
  | case1 => intro c h; cases h
  | case2 d => intro c h; exact Or.inl h
  | case3 a d rest hif ih =>
    intro c h
    rw [replaceCRLF, if_pos hif] at h
    rcases List.mem_cons.1 h with rfl | h'
    · exact Or.inr rfl
    · rcases ih h' with h'' | h''
      · exact Or.inl (by simp [h''])
      · exact Or.inr h''
  | case4 a d rest hif ih =>
    intro c h
    rw [replaceCRLF, if_neg hif] at h
    rcases List.mem_cons.1 h with rfl | h'
    · exact Or.inl (by simp)
    · rcases ih h' with h'' | h''
      · exact Or.inl (List.mem_cons.2 (Or.inr h''))
      · exact Or.inr h''

lemma replaceCRLF_of_no_cr : ∀ {t : List Nat},
    (∀ c ∈ t, c ≠ 13) → replaceCRLF t = t := by
  intro t
  induction t using replaceCRLF.induct with
  | case1 => intro _; rfl
  | case2 d => intro _; rfl
  | case3 a d rest hif ih =>
    intro h
    exact absurd hif.1 (h a (by simp))
  | case4 a d rest hif ih =>
    intro h
    rw [replaceCRLF, if_neg hif, ih fun c hc => h c (List.mem_cons.2 (Or.inr hc))]

lemma mem_replaceCR {t : List Nat} {c : Nat} (h : c ∈ replaceCR t) :
    c ∈ t ∨ c = 10 := by
  rw [replaceCR, List.mem_map] at h
  obtain ⟨a, ha, he⟩ := h
  by_cases h13 : a = 13
  · rw [if_pos h13] at he
    exact Or.inr he.symm
  · rw [if_neg h13] at he
    exact Or.inl (he ▸ ha)

lemma replaceCR_no_cr {t : List Nat} : ∀ c ∈ replaceCR t, c ≠ 13 := by
  intro c h
  rw [replaceCR, List.mem_map] at h
  obtain ⟨a, ha, he⟩ := h
  by_cases h13 : a = 13
  · rw [if_pos h13] at he
    omega
  · rw [if_neg h13] at he
    omega

lemma replaceCR_of_no_cr {t : List Nat} (h : ∀ c ∈ t, c ≠ 13) :
    replaceCR t = t := by
  rw [replaceCR]
  conv_rhs => rw [← List.map_id t]
  exact List.map_congr_left fun a ha => if_neg (h a ha)

lemma unixText_no_cr {t : List Nat} : ∀ c ∈ unixText t, c ≠ 13 :=
  fun c h => replaceCR_no_cr c h

lemma mem_unixText {t : List Nat} {c : Nat} (h : c ∈ unixText t) :
    c ∈ t ∨ c = 10 := by
  rcases mem_replaceCR h with h' | h'
  · exact mem_replaceCRLF' h'
  · exact Or.inr h'

lemma unixText_idem (t : List Nat) : unixText (unixText t) = unixText t := by
  conv_lhs => rw [unixText, replaceCRLF_of_no_cr unixText_no_cr,
    replaceCR_of_no_cr unixText_no_cr]

lemma mem_lfToCrlf : ∀ {t : List Nat} {c : Nat},
    c ∈ lfToCrlf t → c ∈ t ∨ c = 13 := by
  intro t
  induction t with
  | nil => intro c h; cases h
  | cons a rest ih =>
    intro c h
    by_cases h10 : a = 10
    · rw [lfToCrlf, if_pos h10] at h
      rcases List.mem_cons.1 h with rfl | h'
      · exact Or.inr rfl
      · rcases List.mem_cons.1 h' with rfl | h''
        · exact Or.inl (by simp [h10])
        · rcases ih h'' with h3 | h3
          · exact Or.inl (List.mem_cons.2 (Or.inr h3))
          · exact Or.inr h3
    · rw [lfToCrlf, if_neg h10] at h
      rcases List.mem_cons.1 h with rfl | h'
      · exact Or.inl (by simp)
      · rcases ih h' with h3 | h3
        · exact Or.inl (List.mem_cons.2 (Or.inr h3))
        · exact Or.inr h3

lemma unixText_lfToCrlf : ∀ {u : List Nat},
    (∀ c ∈ u, c ≠ 13) → unixText (lfToCrlf u) = u := by
  intro u
  induction u with
  | nil => intro _; rfl
  | cons c rest ih =>
    intro h
    have hrest := ih fun x hx => h x (List.mem_cons.2 (Or.inr hx))
    by_cases h10 : c = 10
    · subst h10
      rw [lfToCrlf, if_pos rfl, unixText, replaceCRLF,
        if_pos ⟨rfl, rfl⟩]
      rw [show replaceCR (10 :: replaceCRLF (lfToCrlf rest)) =
        10 :: unixText (lfToCrlf rest) from rfl, hrest]
    · have h13 : c ≠ 13 := h c (by simp)
      rw [lfToCrlf, if_neg h10, unixText, replaceCRLF_cons_ne h13]
      rw [show replaceCR (c :: replaceCRLF (lfToCrlf rest)) =
        (if c = 13 then 10 else c) :: unixText (lfToCrlf rest) from rfl,
        if_neg h13, hrest]

lemma crlfOnly_cons_ne {c : Nat} (h13 : c ≠ 13) (h10 : c ≠ 10)
    (l : List Nat) : crlfOnly (c :: l) = crlfOnly l := by
  cases l with
  | nil => simp [crlfOnly, h13, h10]
  | cons d rest => simp [crlfOnly, h13, h10]

lemma crlfOnly_lfToCrlf : ∀ {u : List Nat},
    (∀ c ∈ u, c ≠ 13) → crlfOnly (lfToCrlf u) = true := by
  intro u
  induction u with
  | nil => intro _; rfl
  | cons c rest ih =>
    intro h
    have hrest := ih fun x hx => h x (List.mem_cons.2 (Or.inr hx))
    by_cases h10 : c = 10
    · subst h10
      rw [lfToCrlf, if_pos rfl, crlfOnly, if_pos rfl, if_pos rfl, hrest]
    · have h13 : c ≠ 13 := h c (by simp)
      rw [lfToCrlf, if_neg h10, crlfOnly_cons_ne h13 h10, hrest]

lemma crlfOnly_windowsText (t : List Nat) :
    crlfOnly (windowsText t) = true :=
  crlfOnly_lfToCrlf unixText_no_cr

lemma windowsText_idem (t : List Nat) :
    windowsText (windowsText t) = windowsText t := by
  rw [show windowsText (windowsText t) =
      lfToCrlf (unixText (lfToCrlf (unixText t))) from rfl,
    unixText_lfToCrlf unixText_no_cr]
  rfl

lemma valid_10 : ValidCP 10 := by
  constructor
  · omega
  · omega

lemma valid_13 : ValidCP 13 := by
  constructor
  · omega
  · omega

lemma unixText_valid {t : List Nat} (h : ∀ c ∈ t, ValidCP c) :
    ∀ c ∈ unixText t, ValidCP c := by
  intro c hc
  rcases mem_unixText hc with h' | rfl
  · exact h c h'
  · exact valid_10

lemma windowsText_valid {t : List Nat} (h : ∀ c ∈ t, ValidCP c) :
    ∀ c ∈ windowsText t, ValidCP c := by
  intro c hc
  rcases mem_lfToCrlf hc with h' | rfl
  · exact unixText_valid h c h'
  · exact valid_13

lemma decodeWithFallback_valid {bs : List Nat}
    (hbytes : ∀ b ∈ bs, b < 256) :
    ∀ c ∈ decodeWithFallback bs, ValidCP c := by
  intro c hc
  rw [decodeWithFallback] at hc
  split at hc
  · next t ht => exact utf8Decode_valid ht c hc
  · next ht =>
    have := hbytes c hc
    constructor
    · omega
    · omega

lemma decodeWithFallback_encode {t : List Nat} (h : ∀ c ∈ t, ValidCP c) :
    decodeWithFallback (utf8Encode t) = t := by
  rw [decodeWithFallback]
  split
  · next t' ht =>
    rw [utf8Decode_encode h] at ht
    exact (Option.some.injEq _ _ ▸ ht).symm
  · next ht =>
    rw [utf8Decode_encode h] at ht
    cases ht


lemma normalize_content_preserve (content : List Nat) :
    normalize_content Strategy.preserve content = content := rfl

lemma normalize_content_unix (content : List Nat) :
    normalize_content Strategy.unix content =
      utf8Encode (unixText (decodeWithFallback content)) := rfl

lemma normalize_content_auto (content : List Nat) :
    normalize_content Strategy.auto content =
      utf8Encode (unixText (decodeWithFallback content)) := rfl

lemma normalize_content_windows (content : List Nat) :
    normalize_content Strategy.windows content =
      utf8Encode (windowsText (decodeWithFallback content)) := rfl

lemma should_normalize_some_eq (strategy : Strategy) (extLower : Str)
    (bs : List Nat) :
    should_normalize strategy extLower (some bs) =
      (decide (strategy ≠ Strategy.preserve) &&
        (text_extensions.contains extLower ||
          (!(bs.take 1024).isEmpty && !(bs.take 1024).contains 0))) := by
  simp only [should_normalize]
  by_cases hp : strategy = Strategy.preserve
  · subst hp
    rfl
  · rw [if_neg hp, decide_eq_true hp, Bool.true_and]
    cases hext : text_extensions.contains extLower with
    | true =>
      rw [if_pos rfl, Bool.true_or]
    | false =>
      rw [if_neg Bool.false_ne_true, Bool.false_or]
      cases hemp : (bs.take 1024).isEmpty with
      | true => rw [if_pos rfl]; rfl
      | false =>
        rw [if_neg Bool.false_ne_true]
        cases hnull : (bs.take 1024).contains 0 with
        | true => rw [if_pos rfl]; rfl
        | false =>
          rw [if_neg Bool.false_ne_true]
          cases hdec : (utf8Decode (bs.take 1024)).isSome with
          | true => rw [if_pos rfl]; rfl
          | false => rw [if_neg Bool.false_ne_true]; rfl

lemma should_normalize_none_eq (strategy : Strategy) (extLower : Str) :
    should_normalize strategy extLower none =
      (decide (strategy ≠ Strategy.preserve) &&
        text_extensions.contains extLower) := by
  simp only [should_normalize]
  by_cases hp : strategy = Strategy.preserve
  · subst hp
    rfl
  · rw [if_neg hp, decide_eq_true hp, Bool.true_and]
    cases hext : text_extensions.contains extLower with
    | true => rw [if_pos rfl]
    | false => rw [if_neg Bool.false_ne_true]

/-- The normalization predicate exactly as claim C9 words it: apply iff
the extension is on the allow-list or the sniffed sample has no null
bytes and is decodable as UTF-8 or Latin-1 — with no refusal for an
empty sample. -/
def claimedShouldNormalize (strategy : Strategy) (extLower : Str)
    (sampleBytes : Option (List Nat)) : Bool :=
  if strategy = Strategy.preserve then false
  else if text_extensions.contains extLower then true
  else
    match sampleBytes with
    | none => false
    | some bs =>
      let sample := bs.take 1024
      if sample.contains 0 then false
      else if (utf8Decode sample).isSome then true
      else (latin1Decode sample).isSome

/-- C9 counterexample: for a file with a non-text extension whose sniffed
1KB sample is EMPTY, `should_normalize` returns false (the `if not
sample: return False` guard), while the claimed rule — no null bytes and
UTF-8-decodable — accepts it. -/
theorem lineending_policy_counterexample :
    should_normalize Strategy.auto ".bin".data (some []) = false ∧
    claimedShouldNormalize Strategy.auto ".bin".data (some []) = true := by
  constructor
  · rfl
  · have hext : text_extensions.contains (String.data ".bin") = false := by
      decide
    rw [claimedShouldNormalize, if_neg (by decide), hext]
    simp only [Bool.false_eq_true, if_false]
    rw [show List.take 1024 ([] : List Nat) = [] from rfl]
    rw [show List.contains ([] : List Nat) 0 = false from rfl]
    simp only [Bool.false_eq_true, if_false]
    rw [utf8Decode_nil]
    rfl

/-- C9 (amended): `should_normalize` never applies under `preserve`;
otherwise it applies iff the lowered extension is on the allow-list or
the first-1KB sample was read successfully, is nonempty, and has no null
byte (UTF-8-or-Latin-1 decodability is vacuous: the Latin-1 fallback
always succeeds); an unreadable file is refused.  When normalization
applies, `unix` and `auto` rewrite every terminator to LF, `windows`
rewrites every terminator to CRLF (in the result every CR is followed by
LF and every LF preceded by CR), and `preserve` returns the content
unchanged. -/
theorem lineending_policy_amended (strategy : Strategy) (extLower : Str)
    (bs content u : List Nat) :
    should_normalize strategy extLower (some bs) =
      (decide (strategy ≠ Strategy.preserve) &&
        (text_extensions.contains extLower ||
          (!(bs.take 1024).isEmpty && !(bs.take 1024).contains 0))) ∧
    should_normalize strategy extLower none =
      (decide (strategy ≠ Strategy.preserve) &&
        text_extensions.contains extLower) ∧
    normalize_content Strategy.preserve content = content ∧
    normalize_content Strategy.unix content =
      utf8Encode (unixText (decodeWithFallback content)) ∧
    normalize_content Strategy.auto content =
      utf8Encode (unixText (decodeWithFallback content)) ∧
    normalize_content Strategy.windows content =
      utf8Encode (windowsText (decodeWithFallback content)) ∧
    (unixText u).contains 13 = false ∧
    crlfOnly (windowsText u) = true := by
  refine ⟨should_normalize_some_eq strategy extLower bs,
    should_normalize_none_eq strategy extLower, rfl, rfl, rfl, rfl, ?_,
    crlfOnly_windowsText u⟩
  rw [Bool.eq_false_iff]
  intro hmem
  exact unixText_no_cr 13 (by simpa using hmem) rfl

/-- C10: normalization is idempotent.  For every byte string and every
strategy, applying `normalize_content` twice yields the same result as
applying it once, so hashing an already-normalized file reproduces the
digest of the original. -/
theorem normalize_idempotent (strategy : Strategy) (content : List Nat)
    (hbytes : ∀ b ∈ content, b < 256) :
    normalize_content strategy (normalize_content strategy content) =
      normalize_content strategy content := by
  have hvalid := decodeWithFallback_valid hbytes
  cases strategy with
  | preserve => rfl
  | unix =>
    rw [normalize_content_unix, normalize_content_unix,
      decodeWithFallback_encode (unixText_valid hvalid), unixText_idem]
  | auto =>
    rw [normalize_content_auto, normalize_content_auto,
      decodeWithFallback_encode (unixText_valid hvalid), unixText_idem]
  | windows =>
    rw [normalize_content_windows, normalize_content_windows,
      decodeWithFallback_encode (windowsText_valid hvalid),
      windowsText_idem]

/-- Witness for the idempotence theorem at a concrete byte string under
the `windows` strategy. -/
theorem normalize_idempotent_witness :
    (∀ b ∈ [97, 13, 10, 98], b < 256) ∧
    normalize_content Strategy.windows
        (normalize_content Strategy.windows [97, 13, 10, 98]) =
      normalize_content Strategy.windows [97, 13, 10, 98] :=
  ⟨by decide, normalize_idempotent Strategy.windows [97, 13, 10, 98]
    (by decide)⟩

end Dazzlesum
